import Mathlib

/-!
Verification development for the log-file compaction engine of TiKV's
backup-stream component (`components/backup-stream/src/compact/compaction.rs`).

The Rust code is shallowly embedded: byte strings (`&[u8]`, `Arc<[u8]>`,
`Vec<u8>`) become `List Nat`; `u64` arithmetic is `Nat` with `% 2 ^ 64`
where additions occur; the `HashMap` of accumulators becomes an association
list whose keys are kept duplicate-free; `Arc` pointer identity is modelled
by a numeric token carried next to the byte contents (the `Arc` runtime
guarantees that equal tokens imply equal contents, which appears as an
explicit hypothesis where it matters); fallible operations return
`Option` / `Except`.
-/

namespace Compact

/-- Lexicographic comparison of byte strings, mirroring `<[u8] as Ord>::cmp`:
first difference decides, otherwise the shorter string is smaller. -/
def bytesCmp : List Nat → List Nat → Ordering
  | [], [] => .eq
  | [], _ :: _ => .lt
  | _ :: _, [] => .gt
  | a :: as, b :: bs => (compare a b).then (bytesCmp as bs)

theorem natCompare_swap (a b : Nat) : (compare a b).swap = compare b a := by
  rcases Nat.lt_trichotomy a b with h | h | h
  · rw [Nat.compare_eq_lt.mpr h, Nat.compare_eq_gt.mpr h]; rfl
  · subst h; rw [Nat.compare_eq_eq.mpr rfl]; rfl
  · rw [Nat.compare_eq_gt.mpr h, Nat.compare_eq_lt.mpr h]; rfl

theorem ordering_then_swap (o p : Ordering) : (o.then p).swap = o.swap.then p.swap := by
  cases o <;> rfl

theorem then_eq_eq {o p : Ordering} : o.then p = .eq ↔ o = .eq ∧ p = .eq := by
  cases o <;> simp [Ordering.then]

theorem then_eq_lt {o p : Ordering} : o.then p = .lt ↔ o = .lt ∨ (o = .eq ∧ p = .lt) := by
  cases o <;> simp [Ordering.then]

theorem then_eq_gt {o p : Ordering} : o.then p = .gt ↔ o = .gt ∨ (o = .eq ∧ p = .gt) := by
  cases o <;> simp [Ordering.then]

theorem bytesCmp_self (a : List Nat) : bytesCmp a a = .eq := by
  induction a with
  | nil => rfl
  | cons x xs ih =>
    simp only [bytesCmp, Nat.compare_eq_eq.mpr (rfl : x = x), ih]
    rfl

theorem bytesCmp_swap (a b : List Nat) : (bytesCmp a b).swap = bytesCmp b a := by
  induction a generalizing b with
  | nil => cases b <;> rfl
  | cons x xs ih =>
    cases b with
    | nil => rfl
    | cons y ys =>
      simp only [bytesCmp, ordering_then_swap, natCompare_swap, ih]

theorem bytesCmp_eq_iff {a b : List Nat} : bytesCmp a b = .eq ↔ a = b := by
  induction a generalizing b with
  | nil => cases b <;> simp [bytesCmp]
  | cons x xs ih =>
    cases b with
    | nil => simp [bytesCmp]
    | cons y ys =>
      simp only [bytesCmp, then_eq_eq, Nat.compare_eq_eq, ih, List.cons.injEq]

theorem bytesCmp_lt_trans {a b c : List Nat} (h1 : bytesCmp a b = .lt)
    (h2 : bytesCmp b c = .lt) : bytesCmp a c = .lt := by
  induction a generalizing b c with
  | nil =>
    cases b with
    | nil => exact absurd h1 (by simp [bytesCmp])
    | cons y ys => cases c with
      | nil => exact absurd h2 (by simp [bytesCmp])
      | cons z zs => rfl
  | cons x xs ih =>
    cases b with
    | nil => exact absurd h1 (by simp [bytesCmp])
    | cons y ys =>
      cases c with
      | nil => exact absurd h2 (by simp [bytesCmp])
      | cons z zs =>
        simp only [bytesCmp] at h1 h2 ⊢
        cases hxy : compare x y with
        | gt => rw [hxy] at h1; exact absurd h1 (by simp [Ordering.then])
        | lt =>
          cases hyz : compare y z with
          | gt => rw [hyz] at h2; exact absurd h2 (by simp [Ordering.then])
          | lt =>
            have : x < z := lt_trans (Nat.compare_eq_lt.mp hxy) (Nat.compare_eq_lt.mp hyz)
            rw [Nat.compare_eq_lt.mpr this]; rfl
          | eq =>
            have hy : y = z := Nat.compare_eq_eq.mp hyz
            rw [← hy, hxy]; rfl
        | eq =>
          have hx : x = y := Nat.compare_eq_eq.mp hxy
          rw [hxy] at h1
          cases hyz : compare y z with
          | gt => rw [hyz] at h2; exact absurd h2 (by simp [Ordering.then])
          | lt => rw [hx, hyz]; rfl
          | eq =>
            have hy : y = z := Nat.compare_eq_eq.mp hyz
            rw [hyz] at h2
            rw [hx, hy, Nat.compare_eq_eq.mpr rfl]
            simp only [Ordering.then] at h1 h2 ⊢
            exact ih h1 h2

/-- Non-strict order induced by `bytesCmp`. -/
def bytesLe (a b : List Nat) : Prop := bytesCmp a b ≠ .gt

theorem bytesCmp_gt_iff {a b : List Nat} : bytesCmp a b = .gt ↔ bytesCmp b a = .lt := by
  constructor
  · intro h
    have := bytesCmp_swap a b
    rw [h] at this
    exact this.symm
  · intro h
    have := bytesCmp_swap b a
    rw [h] at this
    exact this.symm

theorem bytesLe_total (a b : List Nat) : bytesLe a b ∨ bytesLe b a := by
  unfold bytesLe
  cases h : bytesCmp a b with
  | lt => left; simp
  | eq => left; simp
  | gt => right; rw [bytesCmp_gt_iff.mp h]; simp

theorem bytesLe_trans {a b c : List Nat} (h1 : bytesLe a b) (h2 : bytesLe b c) :
    bytesLe a c := by
  unfold bytesLe at *
  cases hab : bytesCmp a b with
  | gt => exact absurd hab h1
  | eq => rw [bytesCmp_eq_iff.mp hab]; exact h2
  | lt =>
    cases hbc : bytesCmp b c with
    | gt => exact absurd hbc h2
    | eq => rw [← bytesCmp_eq_iff.mp hbc]; rw [hab]; simp
    | lt => rw [bytesCmp_lt_trans hab hbc]; simp

/-! ## The collector data model

Mirrors `Compaction`, `UnformedCompaction`, `CompactionCollectKey`,
`CompactionCollector` and `CollectCompaction::new` from the source.
`u64` addition wraps modulo `2 ^ 64` as in release-mode Rust. -/

/-- `u64` wrapping addition. -/
def u64add (a b : Nat) : Nat := (a + b) % 2 ^ 64

/-- `storage::LogFileId`: name, offset and length of a stored byte range. -/
structure LogFileId where
  name : String
  offset : Nat
  length : Nat
deriving DecidableEq, Repr

/-- `storage::LogFile`: the descriptor consumed by the collector. -/
structure LogFile where
  id : LogFileId
  region_id : Nat
  cf : String
  min_ts : Nat
  max_ts : Nat
  min_key : List Nat
  max_key : List Nat
  real_size : Nat
deriving DecidableEq, Repr

/-- `CompactionCollectKey`: the (cf, region) grouping key. -/
structure CompactionCollectKey where
  cf : String
  region_id : Nat
deriving DecidableEq, Repr

/-- `UnformedCompaction`: the per-key accumulator. -/
structure UnformedCompaction where
  size : Nat
  files : List LogFileId
  min_ts : Nat
  max_ts : Nat
  min_key : List Nat
  max_key : List Nat
deriving DecidableEq, Repr

/-- `Compaction`: a finalized batch. -/
structure Compaction where
  source : List LogFileId
  size : Nat
  region_id : Nat
  cf : String
  max_ts : Nat
  min_ts : Nat
  min_key : List Nat
  max_key : List Nat
deriving DecidableEq, Repr

/-- The grouping key of an input file. -/
def LogFile.collectKey (f : LogFile) : CompactionCollectKey :=
  { cf := f.cf, region_id := f.region_id }

/-- The grouping key a finalized `Compaction` carries. -/
def Compaction.collectKey (c : Compaction) : CompactionCollectKey :=
  { cf := c.cf, region_id := c.region_id }

/-- The `HashMap<CompactionCollectKey, UnformedCompaction>` is embedded as an
association list whose keys stay duplicate-free. -/
abbrev ItemMap := List (CompactionCollectKey × UnformedCompaction)

/-- Lookup in the accumulator map (`HashMap::entry` probe). -/
def findEntry (k : CompactionCollectKey) : ItemMap → Option UnformedCompaction
  | [] => none
  | (k', u) :: t => if k' = k then some u else findEntry k t

/-- In-place update of the entry for `k` (the `Entry::Occupied` mutation). -/
def replaceEntry (k : CompactionCollectKey) (u : UnformedCompaction) : ItemMap → ItemMap
  | [] => []
  | (k', u') :: t => if k' = k then (k', u) :: t else (k', u') :: replaceEntry k u t

/-- Removal of the entry for `k` (`Entry::Occupied::remove`). -/
def eraseEntry (k : CompactionCollectKey) : ItemMap → ItemMap
  | [] => []
  | (k', u') :: t => if k' = k then t else (k', u') :: eraseEntry k t

/-- `CompactionCollector`: accumulator map plus the size threshold. -/
structure CompactionCollector where
  items : ItemMap
  compaction_size_threshold : Nat
deriving DecidableEq, Repr

/-- `ReadableSize::mb(128).0`: the default threshold installed by
`CollectCompaction::new`. -/
def defaultThreshold : Nat := 128 * 1024 * 1024

/-- The collector state built by `CollectCompaction::new`. -/
def initCollector : CompactionCollector :=
  { items := [], compaction_size_threshold := defaultThreshold }

/-- The fresh accumulator created by `add_new_file`'s `Entry::Vacant` branch,
seeded from the file's fields. -/
def seedAcc (file : LogFile) : UnformedCompaction :=
  { size := file.real_size
    files := [file.id]
    min_ts := file.min_ts
    max_ts := file.max_ts
    min_key := file.min_key
    max_key := file.max_key }

/-- The `Entry::Occupied` mutation of `add_new_file`: push the file id, add
its real size (`u64` wrapping), widen the timestamp and key bounds. -/
def bumpAcc (u : UnformedCompaction) (file : LogFile) : UnformedCompaction :=
  { size := u64add u.size file.real_size
    files := u.files ++ [file.id]
    min_ts := min u.min_ts file.min_ts
    max_ts := max u.max_ts file.max_ts
    max_key := if bytesCmp u.max_key file.max_key = .lt then file.max_key else u.max_key
    min_key := if bytesCmp u.min_key file.min_key = .gt then file.min_key else u.min_key }

/-- Packaging an accumulator into a `Compaction` (shared by the threshold
emission and by `take_pending_compactions`, which copy fields identically). -/
def formComp (key : CompactionCollectKey) (u : UnformedCompaction) : Compaction :=
  { source := u.files
    region_id := key.region_id
    cf := key.cf
    size := u.size
    min_ts := u.min_ts
    max_ts := u.max_ts
    min_key := u.min_key
    max_key := u.max_key }

/-- `CompactionCollector::add_new_file`, state-passing: returns the emitted
`Compaction` (if the accumulated size crossed the threshold) and the updated
collector. -/
def add_new_file (s : CompactionCollector) (file : LogFile) :
    Option Compaction × CompactionCollector :=
  let key := file.collectKey
  match findEntry key s.items with
  | some u =>
      let u' := bumpAcc u file
      if u'.size > s.compaction_size_threshold then
        (some (formComp key u'), { s with items := eraseEntry key s.items })
      else
        (none, { s with items := replaceEntry key u' s.items })
  | none =>
      (none, { s with items := s.items ++ [(key, seedAcc file)] })

/-- `CompactionCollector::take_pending_compactions`: drain every remaining
accumulator into a `Compaction`. -/
def take_pending_compactions (s : CompactionCollector) :
    List Compaction × CompactionCollector :=
  (s.items.map fun e => formComp e.1 e.2, { s with items := [] })

theorem add_new_file_vacant {s : CompactionCollector} {f : LogFile}
    (h : findEntry f.collectKey s.items = none) :
    add_new_file s f =
      (none, { s with items := s.items ++ [(f.collectKey, seedAcc f)] }) := by
  simp only [add_new_file, h]

theorem add_new_file_emit {s : CompactionCollector} {f : LogFile}
    {u : UnformedCompaction} (h : findEntry f.collectKey s.items = some u)
    (ht : (bumpAcc u f).size > s.compaction_size_threshold) :
    add_new_file s f =
      (some (formComp f.collectKey (bumpAcc u f)),
       { s with items := eraseEntry f.collectKey s.items }) := by
  simp only [add_new_file, h]
  simp [ht]

theorem add_new_file_keep {s : CompactionCollector} {f : LogFile}
    {u : UnformedCompaction} (h : findEntry f.collectKey s.items = some u)
    (ht : ¬ (bumpAcc u f).size > s.compaction_size_threshold) :
    add_new_file s f =
      (none, { s with items := replaceEntry f.collectKey (bumpAcc u f) s.items }) := by
  simp only [add_new_file, h]
  simp [ht]

/-- Feed a list of files through the collector, recording each call's
emission (`Option Compaction`) in order. -/
def collectCalls (s : CompactionCollector) : List LogFile → List (Option Compaction) × CompactionCollector
  | [] => ([], s)
  | f :: fs =>
      let r := add_new_file s f
      let rest := collectCalls r.2 fs
      (r.1 :: rest.1, rest.2)

theorem collectCalls_cons (s : CompactionCollector) (f : LogFile) (fs : List LogFile) :
    collectCalls s (f :: fs)
      = ((add_new_file s f).1 :: (collectCalls (add_new_file s f).2 fs).1,
         (collectCalls (add_new_file s f).2 fs).2) := rfl

/-- Feed a list of files through the collector, keeping only the emitted
compactions (what the stream operator forwards). -/
def collectFiles (s : CompactionCollector) : List LogFile → List Compaction × CompactionCollector
  | [] => ([], s)
  | f :: fs =>
      let r := add_new_file s f
      let rest := collectFiles r.2 fs
      (r.1.toList ++ rest.1, rest.2)

/-- A full run of `CollectCompaction` over a finite descriptor stream:
threshold emissions in stream order, then the end-of-stream flush via
`take_pending_compactions`. -/
def runCollector (fs : List LogFile) : List Compaction :=
  let r := collectFiles initCollector fs
  r.1 ++ (take_pending_compactions r.2).1

/-! ## Association-list lemmas for the accumulator map -/

/-- Keys of the accumulator map are duplicate-free (the `HashMap` invariant). -/
def NodupKeys (l : ItemMap) : Prop := (l.map Prod.fst).Nodup

theorem findEntry_eq_none {k : CompactionCollectKey} {l : ItemMap} :
    findEntry k l = none ↔ k ∉ l.map Prod.fst := by
  induction l with
  | nil => simp [findEntry]
  | cons e t ih =>
    by_cases h : e.1 = k
    · simp [findEntry, h]
    · simp only [findEntry, h, if_false, List.map_cons, List.mem_cons, ih]
      constructor
      · intro hk hc
        rcases hc with hc | hc
        · exact h hc.symm
        · exact hk hc
      · intro hk
        exact fun hc => hk (Or.inr hc)

theorem findEntry_append_none {k : CompactionCollectKey} {l1 l2 : ItemMap}
    (h : findEntry k l1 = none) : findEntry k (l1 ++ l2) = findEntry k l2 := by
  induction l1 with
  | nil => rfl
  | cons e t ih =>
    simp only [findEntry] at h ⊢
    by_cases he : e.1 = k
    · simp [he] at h
    · simp only [he, if_false] at h ⊢
      exact ih h

theorem findEntry_decomp {k : CompactionCollectKey} {l : ItemMap} {u : UnformedCompaction}
    (h : findEntry k l = some u) :
    ∃ l1 l2, l = l1 ++ (k, u) :: l2 ∧ findEntry k l1 = none := by
  induction l with
  | nil => simp [findEntry] at h
  | cons e t ih =>
    by_cases he : e.1 = k
    · refine ⟨[], t, ?_, rfl⟩
      simp only [findEntry, he, if_true] at h
      cases h
      obtain ⟨k', u'⟩ := e
      simp only at he
      subst he
      rfl
    · simp only [findEntry, he, if_false] at h
      obtain ⟨l1, l2, rfl, hn⟩ := ih h
      exact ⟨e :: l1, l2, rfl, by simp [findEntry, he, hn]⟩

theorem replaceEntry_decomp {k : CompactionCollectKey} {l1 l2 : ItemMap}
    {u u' : UnformedCompaction} (h1 : findEntry k l1 = none) :
    replaceEntry k u' (l1 ++ (k, u) :: l2) = l1 ++ (k, u') :: l2 := by
  induction l1 with
  | nil => simp [replaceEntry]
  | cons e t ih =>
    simp only [findEntry] at h1
    by_cases he : e.1 = k
    · simp [he] at h1
    · simp only [he, if_false] at h1
      simp [replaceEntry, he, ih h1]

theorem eraseEntry_decomp {k : CompactionCollectKey} {l1 l2 : ItemMap}
    {u : UnformedCompaction} (h1 : findEntry k l1 = none) :
    eraseEntry k (l1 ++ (k, u) :: l2) = l1 ++ l2 := by
  induction l1 with
  | nil => simp [eraseEntry]
  | cons e t ih =>
    simp only [findEntry] at h1
    by_cases he : e.1 = k
    · simp [he] at h1
    · simp only [he, if_false] at h1
      simp [eraseEntry, he, ih h1]

theorem findEntry_middle_ne {q k : CompactionCollectKey} {l1 l2 : ItemMap}
    {u : UnformedCompaction} (hne : k ≠ q) :
    findEntry q (l1 ++ (k, u) :: l2) = findEntry q (l1 ++ l2) := by
  induction l1 with
  | nil => simp [findEntry, hne]
  | cons e t ih =>
    by_cases he : e.1 = q <;> simp [findEntry, he, ih]

theorem nodupKeys_middle_right {k : CompactionCollectKey} {l1 l2 : ItemMap}
    {u : UnformedCompaction} (h : NodupKeys (l1 ++ (k, u) :: l2)) :
    findEntry k l2 = none := by
  unfold NodupKeys at h
  rw [List.map_append, List.map_cons] at h
  rw [findEntry_eq_none]
  have := (List.nodup_append.mp h).2.1
  exact (List.nodup_cons.mp this).1

theorem nodupKeys_middle_drop {k : CompactionCollectKey} {l1 l2 : ItemMap}
    {u : UnformedCompaction} (h : NodupKeys (l1 ++ (k, u) :: l2)) :
    NodupKeys (l1 ++ l2) := by
  unfold NodupKeys at h ⊢
  rw [List.map_append, List.map_cons] at h
  rw [List.map_append]
  exact List.Nodup.sublist
    (List.Sublist.append_left (List.sublist_cons_self _ _) _) h

theorem nodupKeys_middle_replace {k : CompactionCollectKey} {l1 l2 : ItemMap}
    {u u' : UnformedCompaction} (h : NodupKeys (l1 ++ (k, u) :: l2)) :
    NodupKeys (l1 ++ (k, u') :: l2) := by
  unfold NodupKeys at h ⊢
  rwa [List.map_append, List.map_cons] at h ⊢

theorem nodupKeys_append_new {k : CompactionCollectKey} {l : ItemMap}
    {u : UnformedCompaction} (h : NodupKeys l) (hn : findEntry k l = none) :
    NodupKeys (l ++ [(k, u)]) := by
  unfold NodupKeys at h ⊢
  rw [List.map_append]
  rw [findEntry_eq_none] at hn
  simp [List.nodup_append, h, hn]

/-! ## Conservation of file ids through the collector (claim C1) -/

/-- Ids buffered in the accumulator for key `q`. -/
def pendingFiles (s : CompactionCollector) (q : CompactionCollectKey) : List LogFileId :=
  match findEntry q s.items with
  | some u => u.files
  | none => []

/-- Source ids of the compactions whose key is `q`, in order. -/
def emsFor (q : CompactionCollectKey) : List Compaction → List LogFileId
  | [] => []
  | c :: cs => (if c.collectKey = q then c.source else []) ++ emsFor q cs

/-- Ids of the input files whose key is `q`, in arrival order. -/
def idsFor (q : CompactionCollectKey) : List LogFile → List LogFileId
  | [] => []
  | f :: fs => (if f.collectKey = q then [f.id] else []) ++ idsFor q fs

theorem emsFor_append (q : CompactionCollectKey) (l1 l2 : List Compaction) :
    emsFor q (l1 ++ l2) = emsFor q l1 ++ emsFor q l2 := by
  induction l1 with
  | nil => rfl
  | cons c t ih => simp [emsFor, ih]

theorem add_new_file_nodup (s : CompactionCollector) (f : LogFile)
    (hnd : NodupKeys s.items) : NodupKeys (add_new_file s f).2.items := by
  cases hfind : findEntry f.collectKey s.items with
  | none =>
    rw [add_new_file_vacant hfind]
    exact nodupKeys_append_new hnd hfind
  | some u =>
    obtain ⟨l1, l2, hdec, hn1⟩ := findEntry_decomp hfind
    by_cases ht : (bumpAcc u f).size > s.compaction_size_threshold
    · rw [add_new_file_emit hfind ht]
      simp only [hdec, eraseEntry_decomp hn1]
      exact nodupKeys_middle_drop (hdec ▸ hnd)
    · rw [add_new_file_keep hfind ht]
      simp only [hdec, replaceEntry_decomp hn1]
      exact nodupKeys_middle_replace (hdec ▸ hnd)

theorem findEntry_append_some {k : CompactionCollectKey} {l1 l2 : ItemMap}
    {u : UnformedCompaction} (h : findEntry k l1 = some u) :
    findEntry k (l1 ++ l2) = some u := by
  induction l1 with
  | nil => simp [findEntry] at h
  | cons e t ih =>
    simp only [findEntry] at h ⊢
    by_cases he : e.1 = k
    · simpa [he] using h
    · simp only [he, if_false] at h ⊢
      exact ih h

theorem formComp_collectKey (k : CompactionCollectKey) (u : UnformedCompaction) :
    (formComp k u).collectKey = k := rfl

theorem add_new_file_step (s : CompactionCollector) (f : LogFile)
    (q : CompactionCollectKey) (hnd : NodupKeys s.items) :
    emsFor q (add_new_file s f).1.toList ++ pendingFiles (add_new_file s f).2 q
      = pendingFiles s q ++ (if f.collectKey = q then [f.id] else []) := by
  cases hfind : findEntry f.collectKey s.items with
  | none =>
    rw [add_new_file_vacant hfind]
    simp only [Option.toList, emsFor, List.nil_append]
    by_cases hq : f.collectKey = q
    · subst hq
      simp only [pendingFiles, hfind, findEntry_append_none hfind, findEntry,
        if_pos rfl, if_pos rfl]
      simp [seedAcc]
    · simp only [pendingFiles, if_neg hq]
      cases hfq : findEntry q s.items with
      | some w => rw [findEntry_append_some hfq]; simp
      | none =>
        rw [findEntry_append_none hfq]
        simp [findEntry, hq]
  | some u =>
    obtain ⟨l1, l2, hdec, hn1⟩ := findEntry_decomp hfind
    have hnd' := hdec ▸ hnd
    have hn2 : findEntry f.collectKey l2 = none := nodupKeys_middle_right hnd'
    by_cases ht : (bumpAcc u f).size > s.compaction_size_threshold
    · -- threshold crossed: emit and erase
      rw [add_new_file_emit hfind ht]
      simp only [Option.toList, emsFor, formComp_collectKey, List.append_nil]
      by_cases hq : f.collectKey = q
      · subst hq
        simp only [if_pos rfl, pendingFiles, hfind, hdec, eraseEntry_decomp hn1,
          findEntry_append_none hn1, hn2]
        simp [formComp, bumpAcc, findEntry]
      · simp only [if_neg hq, pendingFiles, hdec, eraseEntry_decomp hn1,
          findEntry_middle_ne hq]
        simp
    · -- below threshold: replace in place
      rw [add_new_file_keep hfind ht]
      simp only [Option.toList, emsFor, List.nil_append]
      by_cases hq : f.collectKey = q
      · subst hq
        simp only [pendingFiles, hfind, hdec, replaceEntry_decomp hn1,
          findEntry_append_none hn1, findEntry, if_pos rfl]
        simp [bumpAcc]
      · simp only [pendingFiles, hdec, replaceEntry_decomp hn1,
          findEntry_middle_ne hq, if_neg hq]
        simp

theorem collectFiles_nodup (fs : List LogFile) (s : CompactionCollector)
    (hnd : NodupKeys s.items) : NodupKeys (collectFiles s fs).2.items := by
  induction fs generalizing s with
  | nil => exact hnd
  | cons f fs ih =>
    simp only [collectFiles]
    exact ih _ (add_new_file_nodup s f hnd)

theorem collectFiles_step (fs : List LogFile) (s : CompactionCollector)
    (q : CompactionCollectKey) (hnd : NodupKeys s.items) :
    emsFor q (collectFiles s fs).1 ++ pendingFiles (collectFiles s fs).2 q
      = pendingFiles s q ++ idsFor q fs := by
  induction fs generalizing s with
  | nil => simp [collectFiles, emsFor, idsFor]
  | cons f fs ih =>
    simp only [collectFiles, emsFor_append, idsFor, List.append_assoc]
    rw [ih _ (add_new_file_nodup s f hnd), ← List.append_assoc,
      add_new_file_step s f q hnd, List.append_assoc]

theorem emsFor_map_none {q : CompactionCollectKey} {l : ItemMap}
    (hnone : findEntry q l = none) :
    emsFor q (l.map fun e => formComp e.1 e.2) = [] := by
  induction l with
  | nil => rfl
  | cons e t ih =>
    by_cases he : e.1 = q
    · rw [findEntry] at hnone
      simp [he] at hnone
    · rw [findEntry, if_neg he] at hnone
      simp only [List.map_cons, emsFor, formComp_collectKey, if_neg he,
        List.nil_append]
      exact ih hnone

theorem emsFor_map_entries (q : CompactionCollectKey) (l : ItemMap)
    (hnd : NodupKeys l) :
    emsFor q (l.map fun e => formComp e.1 e.2)
      = match findEntry q l with
        | some u => u.files
        | none => [] := by
  induction l with
  | nil => rfl
  | cons e t ih =>
    have hndt : NodupKeys t := (List.nodup_cons.mp hnd).2
    by_cases hq : e.1 = q
    · subst hq
      have hnone : findEntry e.1 t = none := by
        rw [findEntry_eq_none]
        exact (List.nodup_cons.mp hnd).1
      simp only [List.map_cons, emsFor, formComp_collectKey]
      rw [emsFor_map_none hnone]
      simp [formComp, findEntry]
    · simp only [List.map_cons, emsFor, formComp_collectKey, if_neg hq, findEntry,
        List.nil_append]
      exact ih hndt

theorem take_pending_emsFor (s : CompactionCollector) (q : CompactionCollectKey)
    (hnd : NodupKeys s.items) :
    emsFor q (take_pending_compactions s).1 = pendingFiles s q := by
  unfold take_pending_compactions pendingFiles
  exact emsFor_map_entries q s.items hnd

/-- All file ids buffered anywhere in the accumulator map. -/
def allPending (l : ItemMap) : List LogFileId :=
  l.flatMap fun e => e.2.files

theorem allPending_append (l1 l2 : ItemMap) :
    allPending (l1 ++ l2) = allPending l1 ++ allPending l2 := by
  simp [allPending]

theorem add_new_file_perm (s : CompactionCollector) (f : LogFile) :
    (((add_new_file s f).1.toList.flatMap Compaction.source)
        ++ allPending (add_new_file s f).2.items).Perm
      (allPending s.items ++ [f.id]) := by
  cases hfind : findEntry f.collectKey s.items with
  | none =>
    rw [add_new_file_vacant hfind]
    simp only [Option.toList, List.flatMap_nil, List.nil_append, allPending_append]
    simp [allPending, seedAcc]
  | some u =>
    obtain ⟨l1, l2, hdec, hn1⟩ := findEntry_decomp hfind
    by_cases ht : (bumpAcc u f).size > s.compaction_size_threshold
    · rw [add_new_file_emit hfind ht]
      simp only [Option.toList, hdec, eraseEntry_decomp hn1]
      rw [List.perm_iff_count]
      intro a
      simp [allPending, formComp, bumpAcc, List.count_append, List.count_cons]
      omega
    · rw [add_new_file_keep hfind ht]
      simp only [Option.toList, hdec, replaceEntry_decomp hn1]
      rw [List.perm_iff_count]
      intro a
      simp [allPending, bumpAcc, List.count_append, List.count_cons]

theorem collectFiles_perm (fs : List LogFile) (s : CompactionCollector) :
    (((collectFiles s fs).1.flatMap Compaction.source)
        ++ allPending (collectFiles s fs).2.items).Perm
      (allPending s.items ++ fs.map LogFile.id) := by
  induction fs generalizing s with
  | nil => simp [collectFiles]
  | cons f fs ih =>
    simp only [collectFiles, List.flatMap_append, List.map_cons, List.append_assoc]
    refine List.Perm.trans
      ((List.Perm.refl _).append (ih (add_new_file s f).2)) ?_
    rw [← List.append_assoc]
    refine List.Perm.trans ((add_new_file_perm s f).append (List.Perm.refl _)) ?_
    simp

theorem take_pending_flatMap (s : CompactionCollector) :
    (take_pending_compactions s).1.flatMap Compaction.source = allPending s.items := by
  unfold take_pending_compactions allPending
  induction s.items with
  | nil => rfl
  | cons e t ih => simp_all [formComp]

/-- Claim C1 (conservation of file ids): over a full run of the collector,
(a) for every collect key, the concatenated source ids of the compactions
emitted or flushed for that key are exactly the ids of the input files for
that key, in arrival order — so each compaction's sources are precisely the
arrivals for its key since that key's previous emission; and
(b) globally, the multiset of all source ids equals the multiset of input
ids: no file lost, no file duplicated. -/
theorem collector_conserves_file_ids (fs : List LogFile) :
    (∀ q : CompactionCollectKey, emsFor q (runCollector fs) = idsFor q fs) ∧
      ((runCollector fs).flatMap Compaction.source).Perm (fs.map LogFile.id) := by
  constructor
  · intro q
    have hnd : NodupKeys initCollector.items := List.nodup_nil
    have hrun := collectFiles_step fs initCollector q hnd
    have hflush := take_pending_emsFor (collectFiles initCollector fs).2 q
      (collectFiles_nodup fs initCollector hnd)
    unfold runCollector
    rw [emsFor_append, hflush]
    have hinit : pendingFiles initCollector q = [] := rfl
    rw [hinit] at hrun
    simpa using hrun
  · unfold runCollector
    rw [List.flatMap_append, take_pending_flatMap]
    simpa using collectFiles_perm fs initCollector

/-! ## Threshold-crossing behaviour (claim C2) -/

/-- A single file already larger than the 128 MiB threshold. -/
def oversizedFile : LogFile :=
  { id := { name := "oversized.log", offset := 0, length := 1 }
    region_id := 1
    cf := "default"
    min_ts := 1
    max_ts := 2
    min_key := [0]
    max_key := [255]
    real_size := 200 * 1024 * 1024 }

/-- Claim C2 as stated is false at k = 1: a first file whose real_size alone
already strictly exceeds the 128 MiB threshold does NOT make `add_new_file`
return a `Compaction` — the `Entry::Vacant` branch inserts the accumulator
without any threshold check and returns `None`. -/
theorem collector_threshold_k1_counterexample :
    oversizedFile.real_size > initCollector.compaction_size_threshold ∧
      (add_new_file initCollector oversizedFile).1 = none := by
  constructor
  · decide
  · rfl

theorem collectCalls_single_key (q : CompactionCollectKey) (u : UnformedCompaction)
    (fs : List LogFile) (T : Nat) (hT : T < 2 ^ 64)
    (hkeys : ∀ f ∈ fs, f.collectKey = q)
    (hne : fs ≠ [])
    (hpre : ∀ i : Nat, i + 1 < fs.length →
      u.size + ((fs.take (i + 1)).map LogFile.real_size).sum ≤ T)
    (htot : u.size + (fs.map LogFile.real_size).sum > T)
    (hbound : u.size + (fs.map LogFile.real_size).sum < 2 ^ 64) :
    ∃ c : Compaction,
      collectCalls ⟨[(q, u)], T⟩ fs
          = (List.replicate (fs.length - 1) none ++ [some c],
             ⟨[], T⟩) ∧
        c.source = u.files ++ fs.map LogFile.id ∧
        c.size = u.size + (fs.map LogFile.real_size).sum ∧
        c.cf = q.cf ∧ c.region_id = q.region_id := by
  induction fs generalizing u with
  | nil => exact absurd rfl hne
  | cons f fs ih =>
    have hk : f.collectKey = q := hkeys f (List.mem_cons_self _ _)
    have hfind : findEntry f.collectKey ([(q, u)] : ItemMap) = some u := by
      rw [hk]; simp [findEntry]
    cases fs with
    | nil =>
      -- the last file: the bump crosses the threshold and emits
      simp only [List.map_cons, List.map_nil, List.sum_cons, List.sum_nil,
        Nat.add_zero] at htot hbound
      have hsz : (bumpAcc u f).size = u.size + f.real_size := by
        simp only [bumpAcc, u64add]
        exact Nat.mod_eq_of_lt hbound
      have ht : (bumpAcc u f).size > T := by rw [hsz]; exact htot
      refine ⟨formComp q (bumpAcc u f), ?_, ?_, ?_, rfl, rfl⟩
      · simp only [collectCalls]
        rw [add_new_file_emit hfind ht]
        simp only [collectCalls]
        rw [hk]
        simp [eraseEntry, formComp]
      · simp [formComp, bumpAcc]
      · simp [formComp, hsz]
    | cons f2 fs2 =>
      -- an intermediate file: the bump stays at or below the threshold
      have hstep : u.size + f.real_size ≤ T := by
        have := hpre 0 (by simp)
        simpa using this
      have hsz : (bumpAcc u f).size = u.size + f.real_size := by
        simp only [bumpAcc, u64add]
        exact Nat.mod_eq_of_lt (lt_of_le_of_lt hstep hT)
      have ht : ¬ (bumpAcc u f).size > T := by
        rw [hsz]; omega
      have hrepl : replaceEntry f.collectKey (bumpAcc u f) ([(q, u)] : ItemMap)
          = [(q, bumpAcc u f)] := by
        rw [hk]; simp [replaceEntry]
      obtain ⟨c, hc, hsrc, hcsz, hcf, hreg⟩ :=
        ih (bumpAcc u f)
          (fun g hg => hkeys g (List.mem_cons_of_mem _ hg))
          (by simp)
          (by
            intro i hi
            have := hpre (i + 1) (by simpa using hi)
            rw [hsz]
            simpa [Nat.add_assoc] using this)
          (by
            rw [hsz]
            simp only [List.map_cons, List.sum_cons] at htot ⊢
            omega)
          (by
            rw [hsz]
            simp only [List.map_cons, List.sum_cons] at hbound ⊢
            omega)
      refine ⟨c, ?_, ?_, ?_, hcf, hreg⟩
      · rw [collectCalls_cons]
        rw [add_new_file_keep hfind ht]
        simp only [hrepl]
        rw [hc]
        simp [List.replicate_succ]
      · rw [hsrc]
        simp [bumpAcc]
      · rw [hcsz, hsz]
        simp only [List.map_cons, List.sum_cons]
        omega


/-- Claim C2, amended to match the code: emission happens only when a file is
added to an EXISTING accumulator. If the cumulative real_size of a single-key
file sequence first strictly exceeds the threshold at the k-th file with
k ≥ 2 (all shorter prefixes staying at or below it), then the k-th
`add_new_file` call returns a `Compaction` holding exactly files 1..k with
size equal to their cumulative real_size and removes the accumulator, while
every other call (including a first call whose file alone exceeds the
threshold, cf. the counterexample) returns `None`. -/
theorem collector_threshold_emission (q : CompactionCollectKey) (fs : List LogFile)
    (hkeys : ∀ f ∈ fs, f.collectKey = q)
    (hlen : 2 ≤ fs.length)
    (hpre : ∀ i : Nat, i + 1 < fs.length →
      ((fs.take (i + 1)).map LogFile.real_size).sum
        ≤ initCollector.compaction_size_threshold)
    (htot : (fs.map LogFile.real_size).sum > initCollector.compaction_size_threshold)
    (hbound : (fs.map LogFile.real_size).sum < 2 ^ 64) :
    ∃ c : Compaction,
      (collectCalls initCollector fs).1
          = List.replicate (fs.length - 1) none ++ [some c] ∧
        (collectCalls initCollector fs).2.items = [] ∧
        c.source = fs.map LogFile.id ∧
        c.size = (fs.map LogFile.real_size).sum ∧
        c.cf = q.cf ∧ c.region_id = q.region_id := by
  have hT : defaultThreshold < 2 ^ 64 := by decide
  cases fs with
  | nil => simp at hlen
  | cons f fs =>
    cases fs with
    | nil => simp at hlen
    | cons f2 fs2 =>
      have hk : f.collectKey = q := hkeys f (List.mem_cons_self _ _)
      have hfirst : f.real_size ≤ defaultThreshold := by
        have := hpre 0 (by simp)
        simpa using this
      have hvac : findEntry f.collectKey (initCollector.items) = none := rfl
      obtain ⟨c, hc, hsrc, hcsz, hcf, hreg⟩ :=
        collectCalls_single_key q (seedAcc f) (f2 :: fs2) defaultThreshold hT
          (fun g hg => hkeys g (List.mem_cons_of_mem _ hg))
          (by simp)
          (by
            intro i hi
            have := hpre (i + 1) (by simpa using hi)
            simpa [seedAcc, Nat.add_assoc] using this)
          (by
            simp only [seedAcc]
            simp only [List.map_cons, List.sum_cons] at htot
            simpa [Nat.add_assoc] using htot)
          (by
            simp only [seedAcc]
            simp only [List.map_cons, List.sum_cons] at hbound
            simpa [Nat.add_assoc] using hbound)
      have hstate : ({ initCollector with
            items := initCollector.items ++ [(f.collectKey, seedAcc f)] } :
              CompactionCollector)
          = ⟨[(q, seedAcc f)], defaultThreshold⟩ := by
        rw [hk]
        rfl
      have hrun : collectCalls initCollector (f :: f2 :: fs2)
          = (none :: (List.replicate ((f2 :: fs2).length - 1) none ++ [some c]),
             ⟨[], defaultThreshold⟩) := by
        rw [collectCalls_cons, add_new_file_vacant hvac, hstate, hc]
      refine ⟨c, ?_, ?_, ?_, ?_, hcf, hreg⟩
      · rw [hrun]
        simp [List.replicate_succ]
      · rw [hrun]
      · rw [hsrc]
        simp [seedAcc]
      · rw [hcsz]
        simp only [seedAcc, List.map_cons, List.sum_cons]

/-- A 100 MiB file for (cf = "default", region 1). -/
def wfileA : LogFile :=
  { id := { name := "a.log", offset := 0, length := 100 }
    region_id := 1
    cf := "default"
    min_ts := 5
    max_ts := 10
    min_key := [1, 2]
    max_key := [1, 9]
    real_size := 100 * 1024 * 1024 }

/-- A 50 MiB file for the same key, pushing the total over 128 MiB. -/
def wfileB : LogFile :=
  { id := { name := "b.log", offset := 100, length := 50 }
    region_id := 1
    cf := "default"
    min_ts := 2
    max_ts := 7
    min_key := [1, 0]
    max_key := [1, 5]
    real_size := 50 * 1024 * 1024 }

/-- The collect key shared by `wfileA` and `wfileB`. -/
def wkey : CompactionCollectKey := { cf := "default", region_id := 1 }

/-- Witness for `collector_threshold_emission`: the spec's own scenario
(100 MiB then 50 MiB for one key) emits at the second call. -/
theorem collector_threshold_emission_witness :
    ∃ c : Compaction,
      (collectCalls initCollector [wfileA, wfileB]).1
          = List.replicate ([wfileA, wfileB].length - 1) none ++ [some c] ∧
        (collectCalls initCollector [wfileA, wfileB]).2.items = [] ∧
        c.source = [wfileA, wfileB].map LogFile.id ∧
        c.size = ([wfileA, wfileB].map LogFile.real_size).sum ∧
        c.cf = wkey.cf ∧ c.region_id = wkey.region_id :=
  collector_threshold_emission wkey [wfileA, wfileB]
    (by decide) (by decide)
    (by
      intro i hi
      have h0 : i = 0 := by
        simp only [List.length_cons, List.length_nil] at hi
        omega
      subst h0
      decide)
    (by decide) (by decide)

/-! ## Records, sorting and deduplication (claims C3, C4)

`Record.prefix` is a reserved word in Lean, so the byte contents of the
shared `Arc<[u8]>` buffer live in the field `pfx`, and the `Arc` pointer
identity used by the `Arc::ptr_eq` fast path is the numeric token `pfxId`. -/

/-- `Record`: a decoded key/value pair carrying the shared prefix handle. -/
structure Record where
  pfxId : Nat
  pfx : List Nat
  key : List Nat
  value : List Nat
deriving DecidableEq, Repr

/-- `Record::cmp_key`: if the two prefix handles are the same `Arc` pointer,
compare only the key suffixes; otherwise compare prefix bytes and then key
suffixes. -/
def Record.cmp_key (r1 r2 : Record) : Ordering :=
  if r1.pfxId = r2.pfxId then bytesCmp r1.key r2.key
  else (bytesCmp r1.pfx r2.pfx).then (bytesCmp r1.key r2.key)

/-- The `Arc` runtime invariant: equal prefix pointers carry equal bytes. -/
def PtrConsistent (rs : List Record) : Prop :=
  ∀ r1 ∈ rs, ∀ r2 ∈ rs, r1.pfxId = r2.pfxId → r1.pfx = r2.pfx

theorem cmp_key_swap (r1 r2 : Record) :
    (r1.cmp_key r2).swap = r2.cmp_key r1 := by
  unfold Record.cmp_key
  by_cases hid : r1.pfxId = r2.pfxId
  · rw [if_pos hid, if_pos hid.symm, bytesCmp_swap]
  · rw [if_neg hid, if_neg (fun h => hid h.symm), ordering_then_swap,
      bytesCmp_swap, bytesCmp_swap]

theorem cmp_key_self (r : Record) : r.cmp_key r = .eq := by
  unfold Record.cmp_key
  rw [if_pos rfl, bytesCmp_self]

/-- The Boolean `≤` fed to the sort: `cmp_key` did not return `Greater`. -/
def Record.leb (r1 r2 : Record) : Bool :=
  match r1.cmp_key r2 with
  | .gt => false
  | _ => true

/-- Key-equality test used by `dedup_by`:
`|k1, k2| k1.cmp_key(k2) == Ordering::Equal`. -/
def sameKey (r1 r2 : Record) : Bool := r1.cmp_key r2 == .eq

theorem sameKey_symm (r1 r2 : Record) : sameKey r1 r2 = sameKey r2 r1 := by
  unfold sameKey
  rw [← cmp_key_swap r1 r2]
  cases r1.cmp_key r2 <;> rfl

theorem leb_total (r1 r2 : Record) : r1.leb r2 || r2.leb r1 := by
  unfold Record.leb
  rw [← cmp_key_swap r1 r2]
  cases r1.cmp_key r2 <;> rfl

/-- Insertion step of the sort model. -/
def insertLe {α : Type} (le : α → α → Bool) (a : α) : List α → List α
  | [] => [a]
  | b :: t => if le a b then a :: b :: t else b :: insertLe le a t

/-- A stable comparison sort standing in for `slice::sort_unstable_by`
(whose algorithm is unspecified; only the ordering contract matters). -/
def sortByLe {α : Type} (le : α → α → Bool) : List α → List α
  | [] => []
  | a :: t => insertLe le a (sortByLe le t)

theorem insertLe_perm {α : Type} (le : α → α → Bool) (a : α) (l : List α) :
    (insertLe le a l).Perm (a :: l) := by
  induction l with
  | nil => exact List.Perm.refl _
  | cons b t ih =>
    unfold insertLe
    by_cases h : le a b
    · rw [if_pos h]
    · rw [if_neg h]
      exact (ih.cons b).trans (List.Perm.swap a b t)

theorem sortByLe_perm {α : Type} (le : α → α → Bool) (l : List α) :
    (sortByLe le l).Perm l := by
  induction l with
  | nil => exact List.Perm.refl _
  | cons a t ih =>
    exact (insertLe_perm le a (sortByLe le t)).trans (ih.cons a)

theorem insertLe_pairwise {α : Type} (le : α → α → Bool)
    (htot : ∀ x y, le x y || le y x)
    (htrans : ∀ x y z, le x y = true → le y z = true → le x z = true)
    (a : α) (l : List α)
    (h : l.Pairwise (fun x y => le x y = true)) :
    (insertLe le a l).Pairwise (fun x y => le x y = true) := by
  induction l with
  | nil => simp [insertLe]
  | cons b t ih =>
    obtain ⟨hb, ht⟩ := List.pairwise_cons.mp h
    unfold insertLe
    by_cases hab : le a b
    · rw [if_pos hab]
      refine List.pairwise_cons.mpr ⟨?_, h⟩
      intro x hx
      rcases List.mem_cons.mp hx with rfl | hx
      · exact hab
      · exact htrans a b x hab (hb x hx)
    · rw [if_neg hab]
      have hba : le b a := by
        have := htot a b
        rcases Bool.or_eq_true_iff.mp this with h1 | h1
        · exact absurd h1 (by simpa using hab)
        · exact h1
      refine List.pairwise_cons.mpr ⟨?_, ih ht⟩
      intro x hx
      have hmem : x ∈ a :: t := (insertLe_perm le a t).mem_iff.mp hx
      rcases List.mem_cons.mp hmem with rfl | hx'
      · exact hba
      · exact hb x hx'

theorem sortByLe_pairwise {α : Type} (le : α → α → Bool)
    (htot : ∀ x y, le x y || le y x)
    (htrans : ∀ x y z, le x y = true → le y z = true → le x z = true)
    (l : List α) :
    (sortByLe le l).Pairwise (fun x y => le x y = true) := by
  induction l with
  | nil => simp [sortByLe]
  | cons a t ih =>
    exact insertLe_pairwise le htot htrans a _ ih

/-- Tail recursion of the `Vec::dedup_by` model: `last` is the most recently
kept element; a later element equal to it (under `same`) is removed. -/
def dedupAux {α : Type} (same : α → α → Bool) : α → List α → List α
  | _, [] => []
  | last, b :: t => if same b last then dedupAux same last t else b :: dedupAux same b t

/-- `Vec::dedup_by(same_bucket)`: of each run of consecutive elements
related by `same_bucket`, the first is kept and the rest are removed. -/
def dedupBy {α : Type} (same : α → α → Bool) : List α → List α
  | [] => []
  | a :: t => a :: dedupAux same a t

/-- `CompactWorker::merge_and_sort`: flatten the per-file record lists,
sort by `cmp_key`, deduplicate adjacent equal keys. -/
def merge_and_sort (items : List (List Record)) : List Record :=
  dedupBy sameKey (sortByLe Record.leb items.flatten)

/-- First of two records with equal keys (value 1). -/
def rcFirst : Record := { pfxId := 0, pfx := [97], key := [98], value := [1] }

/-- Second of two records with the same key (value 2). -/
def rcSecond : Record := { pfxId := 0, pfx := [97], key := [98], value := [2] }

/-- Claim C3 as stated is false: for the already-sorted sequence
`[rcFirst, rcSecond]` whose two keys compare equal, `merge_and_sort` keeps
the FIRST occurrence (value 1), not the last — `Vec::dedup_by` removes all
but the first of consecutive equal elements. -/
theorem merge_dedup_last_counterexample :
    rcFirst.cmp_key rcSecond = .eq ∧
      rcFirst.leb rcSecond = true ∧
      rcFirst.value ≠ rcSecond.value ∧
      merge_and_sort [[rcFirst, rcSecond]] = [rcFirst] := by
  refine ⟨rfl, rfl, by decide, rfl⟩

theorem dedupAux_skip {last : Record} (run t : List Record)
    (h : ∀ r ∈ run, sameKey r last = true) :
    dedupAux sameKey last (run ++ t) = dedupAux sameKey last t := by
  induction run with
  | nil => rfl
  | cons r run ih =>
    have hr : sameKey r last = true := h r (List.mem_cons_self _ _)
    simp only [List.cons_append, dedupAux, hr, if_true]
    exact ih (fun x hx => h x (List.mem_cons_of_mem _ hx))

theorem dedupAux_fresh {a : Record} (post : List Record)
    (h : ∀ r ∈ post, sameKey r a = false) :
    dedupAux sameKey a post = dedupBy sameKey post := by
  cases post with
  | nil => rfl
  | cons b t =>
    have hb : sameKey b a = false := h b (List.mem_cons_self _ _)
    simp [dedupAux, dedupBy, hb]

theorem dedupAux_mid (a : Record) (run post : List Record)
    (hrun : ∀ r ∈ run, sameKey r a = true)
    (hpost : ∀ r ∈ post, sameKey r a = false) :
    ∀ (pre : List Record) (last : Record),
      (∀ r ∈ pre, sameKey a r = false) →
      sameKey a last = false →
      dedupAux sameKey last (pre ++ a :: (run ++ post))
        = dedupAux sameKey last pre ++ a :: dedupBy sameKey post := by
  intro pre
  induction pre with
  | nil =>
    intro last _ hlast
    simp only [List.nil_append, dedupAux, hlast, Bool.false_eq_true, if_false]
    rw [dedupAux_skip run post hrun, dedupAux_fresh post hpost]
  | cons b pre ih =>
    intro last hpre hlast
    have hb : sameKey a b = false := hpre b (List.mem_cons_self _ _)
    have hpre' : ∀ r ∈ pre, sameKey a r = false :=
      fun r hr => hpre r (List.mem_cons_of_mem _ hr)
    by_cases hbl : sameKey b last = true
    · simp only [List.cons_append, dedupAux, hbl, if_true]
      exact ih last hpre' hlast
    · simp only [List.cons_append, dedupAux, hbl, if_false, Bool.false_eq_true,
        List.append_eq]
      rw [ih b hpre' hb]

/-- Claim C3, amended to match `Vec::dedup_by`: in a sorted sequence whose
only records with `a`'s key are the run `a :: run` (every earlier and every
later record has a different key), the deduplication retains the FIRST
occurrence `a` of the equal-key run and discards the later ones. -/
theorem merge_dedup_keeps_first (pre : List Record) (a : Record)
    (run post : List Record)
    (hpre : ∀ r ∈ pre, sameKey a r = false)
    (hrun : ∀ r ∈ run, sameKey r a = true)
    (hpost : ∀ r ∈ post, sameKey r a = false)
    (_hne : run ≠ []) :
    dedupBy sameKey (pre ++ a :: (run ++ post))
      = dedupBy sameKey pre ++ a :: dedupBy sameKey post := by
  cases pre with
  | nil =>
    simp only [List.nil_append, dedupBy]
    rw [dedupAux_skip run post hrun, dedupAux_fresh post hpost]
    rfl
  | cons b pre =>
    have hb : sameKey a b = false := hpre b (List.mem_cons_self _ _)
    have hpre' : ∀ r ∈ pre, sameKey a r = false :=
      fun r hr => hpre r (List.mem_cons_of_mem _ hr)
    simp only [List.cons_append, dedupBy, List.append_eq]
    rw [dedupAux_mid a run post hrun hpost pre b hpre' hb]
    rfl

/-- Record before the run (key 97). -/
def rcBefore : Record := { pfxId := 0, pfx := [97], key := [97], value := [0] }

/-- Later element of the run (key 98, value 3). -/
def rcThird : Record := { pfxId := 0, pfx := [97], key := [98], value := [3] }

/-- Record after the run (key 99). -/
def rcAfter : Record := { pfxId := 0, pfx := [97], key := [99], value := [4] }

/-- Witness for `merge_dedup_keeps_first` on a concrete sorted sequence:
the run `[rcFirst, rcSecond, rcThird]` collapses to its first element. -/
theorem merge_dedup_keeps_first_witness :
    dedupBy sameKey ([rcBefore] ++ rcFirst :: ([rcSecond, rcThird] ++ [rcAfter]))
      = dedupBy sameKey [rcBefore] ++ rcFirst :: dedupBy sameKey [rcAfter] :=
  merge_dedup_keeps_first [rcBefore] rcFirst [rcSecond, rcThird] [rcAfter]
    (by decide) (by decide) (by decide) (by decide)

/-! ## The pure lexicographic record order

`Record.cmp_key` consults `Arc::ptr_eq` only as a fast path; under the `Arc`
invariant (equal pointers ⇒ equal bytes) it coincides with the plain
(prefix bytes, key suffix) lexicographic comparison defined here, for which
transitivity holds unconditionally. -/

/-- Comparison on (prefix bytes, key suffix) without the pointer fast path. -/
def Record.lexCmp (r1 r2 : Record) : Ordering :=
  (bytesCmp r1.pfx r2.pfx).then (bytesCmp r1.key r2.key)

/-- `≤` for `lexCmp`. -/
def Record.lexLeb (r1 r2 : Record) : Bool :=
  match r1.lexCmp r2 with
  | .gt => false
  | _ => true

/-- Key equality for `lexCmp`. -/
def lexSame (r1 r2 : Record) : Bool := r1.lexCmp r2 == .eq

theorem cmp_key_eq_lexCmp {r1 r2 : Record} (h : r1.pfxId = r2.pfxId → r1.pfx = r2.pfx) :
    r1.cmp_key r2 = r1.lexCmp r2 := by
  unfold Record.cmp_key Record.lexCmp
  by_cases hid : r1.pfxId = r2.pfxId
  · rw [if_pos hid, h hid, bytesCmp_self]
    rfl
  · rw [if_neg hid]

theorem lexCmp_swap (r1 r2 : Record) : (r1.lexCmp r2).swap = r2.lexCmp r1 := by
  unfold Record.lexCmp
  rw [ordering_then_swap, bytesCmp_swap, bytesCmp_swap]

theorem lexCmp_eq_iff {r1 r2 : Record} :
    r1.lexCmp r2 = .eq ↔ r1.pfx = r2.pfx ∧ r1.key = r2.key := by
  unfold Record.lexCmp
  rw [then_eq_eq, bytesCmp_eq_iff, bytesCmp_eq_iff]

theorem lexCmp_congr_left {r1 r2 : Record} (hp : r1.pfx = r2.pfx)
    (hk : r1.key = r2.key) (r3 : Record) : r1.lexCmp r3 = r2.lexCmp r3 := by
  unfold Record.lexCmp
  rw [hp, hk]

theorem lexCmp_congr_right {r2 r3 : Record} (hp : r2.pfx = r3.pfx)
    (hk : r2.key = r3.key) (r1 : Record) : r1.lexCmp r3 = r1.lexCmp r2 := by
  unfold Record.lexCmp
  rw [← hp, ← hk]

theorem lexCmp_lt_trans {r1 r2 r3 : Record} (h1 : r1.lexCmp r2 = .lt)
    (h2 : r2.lexCmp r3 = .lt) : r1.lexCmp r3 = .lt := by
  unfold Record.lexCmp at h1 h2 ⊢
  rcases then_eq_lt.mp h1 with hp1 | ⟨hp1, hk1⟩ <;>
    rcases then_eq_lt.mp h2 with hp2 | ⟨hp2, hk2⟩
  · exact then_eq_lt.mpr (Or.inl (bytesCmp_lt_trans hp1 hp2))
  · rw [bytesCmp_eq_iff.mp hp2] at hp1
    exact then_eq_lt.mpr (Or.inl hp1)
  · rw [← bytesCmp_eq_iff.mp hp1] at hp2
    exact then_eq_lt.mpr (Or.inl hp2)
  · refine then_eq_lt.mpr (Or.inr ⟨?_, bytesCmp_lt_trans hk1 hk2⟩)
    rw [bytesCmp_eq_iff.mp hp1, bytesCmp_eq_iff.mp hp2, bytesCmp_self]

theorem lexLeb_iff {r1 r2 : Record} : r1.lexLeb r2 = true ↔ r1.lexCmp r2 ≠ .gt := by
  unfold Record.lexLeb
  cases h : r1.lexCmp r2 <;> simp

theorem lexLeb_total (r1 r2 : Record) : r1.lexLeb r2 || r2.lexLeb r1 := by
  unfold Record.lexLeb
  rw [← lexCmp_swap r1 r2]
  cases r1.lexCmp r2 <;> rfl

theorem lexLeb_trans (r1 r2 r3 : Record) (h1 : r1.lexLeb r2 = true)
    (h2 : r2.lexLeb r3 = true) : r1.lexLeb r3 = true := by
  rw [lexLeb_iff] at h1 h2 ⊢
  cases hc1 : r1.lexCmp r2 with
  | gt => exact absurd hc1 h1
  | eq =>
    obtain ⟨hp, hk⟩ := lexCmp_eq_iff.mp hc1
    rw [lexCmp_congr_left hp hk r3]
    exact h2
  | lt =>
    cases hc2 : r2.lexCmp r3 with
    | gt => exact absurd hc2 h2
    | eq =>
      obtain ⟨hp, hk⟩ := lexCmp_eq_iff.mp hc2
      rw [lexCmp_congr_right hp hk r1, hc1]
      simp
    | lt =>
      rw [lexCmp_lt_trans hc1 hc2]
      simp

/-! ## Transfer lemmas: the comparison functions agree on consistent inputs -/

theorem insertLe_congr {α : Type} (le₁ le₂ : α → α → Bool) (a : α) (l : List α)
    (h : ∀ x ∈ a :: l, ∀ y ∈ a :: l, le₁ x y = le₂ x y) :
    insertLe le₁ a l = insertLe le₂ a l := by
  induction l with
  | nil => rfl
  | cons b t ih =>
    unfold insertLe
    rw [h a (by simp) b (by simp)]
    by_cases hc : le₂ a b
    · rw [if_pos hc, if_pos hc]
    · rw [if_neg hc, if_neg hc]
      have hsub : ∀ x ∈ a :: t, x ∈ a :: b :: t := by
        intro x hx
        rcases List.mem_cons.mp hx with rfl | hx
        · exact List.mem_cons_self _ _
        · exact List.mem_cons_of_mem _ (List.mem_cons_of_mem _ hx)
      rw [ih (fun x hx y hy => h x (hsub x hx) y (hsub y hy))]

theorem sortByLe_congr {α : Type} (le₁ le₂ : α → α → Bool) (l : List α)
    (h : ∀ x ∈ l, ∀ y ∈ l, le₁ x y = le₂ x y) :
    sortByLe le₁ l = sortByLe le₂ l := by
  induction l with
  | nil => rfl
  | cons a t ih =>
    unfold sortByLe
    have hsubt : ∀ x ∈ t, x ∈ a :: t := fun x hx => List.mem_cons_of_mem _ hx
    rw [ih (fun x hx y hy => h x (hsubt x hx) y (hsubt y hy))]
    apply insertLe_congr
    intro x hx y hy
    have hmem : ∀ z, z ∈ a :: sortByLe le₂ t → z ∈ a :: t := by
      intro z hz
      rcases List.mem_cons.mp hz with rfl | hz
      · exact List.mem_cons_self _ _
      · exact List.mem_cons_of_mem _ ((sortByLe_perm le₂ t).mem_iff.mp hz)
    exact h x (hmem x hx) y (hmem y hy)

theorem dedupAux_congr {α : Type} (s₁ s₂ : α → α → Bool) :
    ∀ (l : List α) (last : α),
      (∀ x ∈ last :: l, ∀ y ∈ last :: l, s₁ x y = s₂ x y) →
      dedupAux s₁ last l = dedupAux s₂ last l := by
  intro l
  induction l with
  | nil => intro last _; rfl
  | cons b t ih =>
    intro last h
    unfold dedupAux
    rw [h b (by simp) last (by simp)]
    have hsub1 : ∀ x ∈ last :: t, x ∈ last :: b :: t := by
      intro x hx
      rcases List.mem_cons.mp hx with rfl | hx
      · exact List.mem_cons_self _ _
      · exact List.mem_cons_of_mem _ (List.mem_cons_of_mem _ hx)
    have hsub2 : ∀ x ∈ b :: t, x ∈ last :: b :: t :=
      fun x hx => List.mem_cons_of_mem _ hx
    by_cases hc : s₂ b last
    · rw [if_pos hc, if_pos hc]
      exact ih last (fun x hx y hy => h x (hsub1 x hx) y (hsub1 y hy))
    · rw [if_neg hc, if_neg hc]
      rw [ih b (fun x hx y hy => h x (hsub2 x hx) y (hsub2 y hy))]

theorem dedupBy_congr {α : Type} (s₁ s₂ : α → α → Bool) (l : List α)
    (h : ∀ x ∈ l, ∀ y ∈ l, s₁ x y = s₂ x y) :
    dedupBy s₁ l = dedupBy s₂ l := by
  cases l with
  | nil => rfl
  | cons a t =>
    show a :: dedupAux s₁ a t = a :: dedupAux s₂ a t
    rw [dedupAux_congr s₁ s₂ t a h]

/-! ## Chain, length and membership facts about `dedupBy` -/

theorem dedupAux_strict_chain :
    ∀ (t : List Record) (last : Record),
      (last :: t).Pairwise (fun x y => x.lexLeb y = true) →
      List.Chain' (fun r1 r2 => r1.lexCmp r2 = .lt) (last :: dedupAux lexSame last t) := by
  intro t
  induction t with
  | nil => intro last _; simp [dedupAux]
  | cons b t ih =>
    intro last h
    obtain ⟨hlast, hbt⟩ := List.pairwise_cons.mp h
    unfold dedupAux
    by_cases hs : lexSame b last
    · rw [if_pos hs]
      apply ih last
      refine List.pairwise_cons.mpr ⟨?_, (List.pairwise_cons.mp hbt).2⟩
      intro x hx
      exact hlast x (List.mem_cons_of_mem _ hx)
    · rw [if_neg hs]
      have hle : last.lexLeb b = true := hlast b (List.mem_cons_self _ _)
      rw [lexLeb_iff] at hle
      have hne : last.lexCmp b ≠ .eq := by
        intro he
        apply hs
        unfold lexSame
        rw [← lexCmp_swap last b, he]
        rfl
      have hlt : last.lexCmp b = .lt := by
        cases hc : last.lexCmp b with
        | lt => rfl
        | eq => exact absurd hc hne
        | gt => exact absurd hc hle
      exact List.chain'_cons.mpr ⟨hlt, ih b hbt⟩

theorem dedupBy_strict_chain (l : List Record)
    (h : l.Pairwise (fun x y => x.lexLeb y = true)) :
    List.Chain' (fun r1 r2 => r1.lexCmp r2 = .lt) (dedupBy lexSame l) := by
  cases l with
  | nil => simp [dedupBy]
  | cons a t => exact dedupAux_strict_chain t a h

theorem dedupAux_length {α : Type} (same : α → α → Bool) :
    ∀ (l : List α) (last : α), (dedupAux same last l).length ≤ l.length := by
  intro l
  induction l with
  | nil => intro last; simp [dedupAux]
  | cons b t ih =>
    intro last
    unfold dedupAux
    by_cases hc : same b last
    · rw [if_pos hc]
      exact Nat.le_succ_of_le (ih last)
    · rw [if_neg hc]
      simpa using ih b

theorem dedupBy_length {α : Type} (same : α → α → Bool) (l : List α) :
    (dedupBy same l).length ≤ l.length := by
  cases l with
  | nil => simp [dedupBy]
  | cons a t => simpa [dedupBy] using dedupAux_length same t a

theorem dedupAux_subset {α : Type} (same : α → α → Bool) :
    ∀ (l : List α) (last x : α), x ∈ dedupAux same last l → x ∈ l := by
  intro l
  induction l with
  | nil => intro last x hx; simp [dedupAux] at hx
  | cons b t ih =>
    intro last x hx
    unfold dedupAux at hx
    by_cases hc : same b last
    · rw [if_pos hc] at hx
      exact List.mem_cons_of_mem _ (ih last x hx)
    · rw [if_neg hc] at hx
      rcases List.mem_cons.mp hx with rfl | hx
      · exact List.mem_cons_self _ _
      · exact List.mem_cons_of_mem _ (ih b x hx)

theorem dedupBy_subset {α : Type} (same : α → α → Bool) (l : List α) (x : α)
    (hx : x ∈ dedupBy same l) : x ∈ l := by
  cases l with
  | nil => simp [dedupBy] at hx
  | cons a t =>
    unfold dedupBy at hx
    rcases List.mem_cons.mp hx with rfl | hx
    · exact List.mem_cons_self _ _
    · exact List.mem_cons_of_mem _ (dedupAux_subset same t a x hx)

theorem chain'_congr_mem {α : Type} {R S : α → α → Prop} :
    ∀ (l : List α), List.Chain' R l → (∀ x ∈ l, ∀ y ∈ l, R x y → S x y) →
      List.Chain' S l := by
  intro l
  induction l with
  | nil => intro _ _; simp
  | cons a t ih =>
    intro h himp
    cases t with
    | nil => simp
    | cons b t2 =>
      obtain ⟨hab, ht⟩ := List.chain'_cons.mp h
      refine List.chain'_cons.mpr ⟨himp a (by simp) b (by simp) hab, ?_⟩
      exact ih ht
        (fun x hx y hy hr => himp x (List.mem_cons_of_mem _ hx)
          y (List.mem_cons_of_mem _ hy) hr)

/-- Claim C4: for every collection of per-file record lists whose shared
prefix handles are consistent (the `Arc` runtime invariant), `merge_and_sort`
produces a sequence with strictly increasing keys under `cmp_key`, of length
at most the total number of input records, in which every surviving record's
value is the value of an input record with an equal key. -/
theorem merge_and_sort_correct (items : List (List Record))
    (hcons : PtrConsistent items.flatten) :
    List.Chain' (fun r1 r2 => r1.cmp_key r2 = .lt) (merge_and_sort items) ∧
      (merge_and_sort items).length ≤ (items.map List.length).sum ∧
      ∀ r ∈ merge_and_sort items, ∃ r' ∈ items.flatten,
        r.cmp_key r' = .eq ∧ r.value = r'.value := by
  have hagree_le : ∀ x ∈ items.flatten, ∀ y ∈ items.flatten,
      Record.leb x y = Record.lexLeb x y := by
    intro x hx y hy
    unfold Record.leb Record.lexLeb
    rw [cmp_key_eq_lexCmp (hcons x hx y hy)]
  have hagree_same : ∀ x ∈ items.flatten, ∀ y ∈ items.flatten,
      sameKey x y = lexSame x y := by
    intro x hx y hy
    unfold sameKey lexSame
    rw [cmp_key_eq_lexCmp (hcons x hx y hy)]
  have hmem_sorted : ∀ x ∈ sortByLe Record.lexLeb items.flatten, x ∈ items.flatten :=
    fun x hx => (sortByLe_perm _ items.flatten).mem_iff.mp hx
  have hms : merge_and_sort items
      = dedupBy lexSame (sortByLe Record.lexLeb items.flatten) := by
    unfold merge_and_sort
    rw [sortByLe_congr _ _ items.flatten hagree_le]
    exact dedupBy_congr _ _ _
      (fun x hx y hy => hagree_same x (hmem_sorted x hx) y (hmem_sorted y hy))
  have hpair : (sortByLe Record.lexLeb items.flatten).Pairwise
      (fun x y => x.lexLeb y = true) :=
    sortByLe_pairwise _ lexLeb_total lexLeb_trans items.flatten
  have hsub : ∀ x ∈ dedupBy lexSame (sortByLe Record.lexLeb items.flatten),
      x ∈ items.flatten :=
    fun x hx => hmem_sorted x (dedupBy_subset _ _ x hx)
  refine ⟨?_, ?_, ?_⟩
  · rw [hms]
    refine chain'_congr_mem _ (dedupBy_strict_chain _ hpair) ?_
    intro x hx y hy hr
    rw [cmp_key_eq_lexCmp (hcons x (hsub x hx) y (hsub y hy))]
    exact hr
  · rw [hms]
    calc (dedupBy lexSame (sortByLe Record.lexLeb items.flatten)).length
        ≤ (sortByLe Record.lexLeb items.flatten).length := dedupBy_length _ _
      _ = items.flatten.length := (sortByLe_perm _ items.flatten).length_eq
      _ = (items.map List.length).sum := List.length_flatten items
  · rw [hms]
    intro r hr
    exact ⟨r, hsub r hr, cmp_key_self r, rfl⟩

/-- Input collection for the `merge_and_sort` witness. -/
def witnessItems : List (List Record) := [[rcSecond, rcBefore], [rcFirst, rcAfter]]

/-- Witness for `merge_and_sort_correct` at a concrete input. -/
theorem merge_and_sort_correct_witness :
    List.Chain' (fun r1 r2 => r1.cmp_key r2 = .lt) (merge_and_sort witnessItems) ∧
      (merge_and_sort witnessItems).length ≤ (witnessItems.map List.length).sum ∧
      ∀ r ∈ merge_and_sort witnessItems, ∃ r' ∈ witnessItems.flatten,
        r.cmp_key r' = .eq ∧ r.value = r'.value :=
  merge_and_sort_correct witnessItems (by unfold PtrConsistent; decide)

/-! ## Statistics containers and their additive merge (claim C5)

Counters are `u64` (wrapping addition); the four `Duration` fields are
modelled as nanosecond counts in `Nat` — `Duration` addition is plain
addition of time spans (its panic-on-overflow guard is out of scope of the
algebra the claim is about and does not arise below `2^64` seconds). -/

/-- `LoadStatistic`. -/
structure LoadStatistic where
  files_in : Nat
  keys_in : Nat
  physical_bytes_in : Nat
  logical_key_bytes_in : Nat
  logical_value_bytes_in : Nat
deriving DecidableEq, Repr

/-- `LoadStatistic::default()`: all counters zero. -/
def LoadStatistic.default : LoadStatistic :=
  { files_in := 0, keys_in := 0, physical_bytes_in := 0
    logical_key_bytes_in := 0, logical_value_bytes_in := 0 }

/-- `LoadStatistic::merge_with`, as a binary operation. -/
def LoadStatistic.merge_with (self other : LoadStatistic) : LoadStatistic :=
  { files_in := u64add self.files_in other.files_in
    keys_in := u64add self.keys_in other.keys_in
    physical_bytes_in := u64add self.physical_bytes_in other.physical_bytes_in
    logical_key_bytes_in := u64add self.logical_key_bytes_in other.logical_key_bytes_in
    logical_value_bytes_in := u64add self.logical_value_bytes_in other.logical_value_bytes_in }

/-- All counters are in `u64` range. -/
def LoadStatistic.WF (s : LoadStatistic) : Prop :=
  s.files_in < 2 ^ 64 ∧ s.keys_in < 2 ^ 64 ∧ s.physical_bytes_in < 2 ^ 64 ∧
    s.logical_key_bytes_in < 2 ^ 64 ∧ s.logical_value_bytes_in < 2 ^ 64

/-- `CompactStatistic`. -/
structure CompactStatistic where
  keys_out : Nat
  physical_bytes_out : Nat
  logical_key_bytes_out : Nat
  logical_value_bytes_out : Nat
  write_sst_duration : Nat
  load_duration : Nat
  sort_duration : Nat
  save_duration : Nat
deriving DecidableEq, Repr

/-- `CompactStatistic::default()`: all counters and durations zero. -/
def CompactStatistic.default : CompactStatistic :=
  { keys_out := 0, physical_bytes_out := 0, logical_key_bytes_out := 0
    logical_value_bytes_out := 0, write_sst_duration := 0, load_duration := 0
    sort_duration := 0, save_duration := 0 }

/-- `CompactStatistic::merge_with`, as a binary operation. -/
def CompactStatistic.merge_with (self other : CompactStatistic) : CompactStatistic :=
  { keys_out := u64add self.keys_out other.keys_out
    physical_bytes_out := u64add self.physical_bytes_out other.physical_bytes_out
    logical_key_bytes_out := u64add self.logical_key_bytes_out other.logical_key_bytes_out
    logical_value_bytes_out := u64add self.logical_value_bytes_out other.logical_value_bytes_out
    write_sst_duration := self.write_sst_duration + other.write_sst_duration
    load_duration := self.load_duration + other.load_duration
    sort_duration := self.sort_duration + other.sort_duration
    save_duration := self.save_duration + other.save_duration }

/-- The `u64` counters are in range. -/
def CompactStatistic.WF (s : CompactStatistic) : Prop :=
  s.keys_out < 2 ^ 64 ∧ s.physical_bytes_out < 2 ^ 64 ∧
    s.logical_key_bytes_out < 2 ^ 64 ∧ s.logical_value_bytes_out < 2 ^ 64

theorem u64add_assoc (a b c : Nat) : u64add (u64add a b) c = u64add a (u64add b c) := by
  unfold u64add
  rw [Nat.mod_add_mod, Nat.add_mod_mod, Nat.add_assoc]

theorem u64add_comm (a b : Nat) : u64add a b = u64add b a := by
  unfold u64add
  rw [Nat.add_comm]

theorem u64add_zero_left {a : Nat} (h : a < 2 ^ 64) : u64add 0 a = a := by
  unfold u64add
  rw [Nat.zero_add]
  exact Nat.mod_eq_of_lt h

theorem u64add_zero_right {a : Nat} (h : a < 2 ^ 64) : u64add a 0 = a := by
  unfold u64add
  rw [Nat.add_zero]
  exact Nat.mod_eq_of_lt h

/-- Claim C5: both statistics merges are associative and commutative, and
the all-zero default is an identity (on in-range, i.e. `u64`-valued,
statistics) — so per-file statistics may be combined in any order and any
split-and-combine grouping. -/
theorem statistics_merge_monoid :
    (∀ a b c : LoadStatistic,
        (a.merge_with b).merge_with c = a.merge_with (b.merge_with c)) ∧
      (∀ a b : LoadStatistic, a.merge_with b = b.merge_with a) ∧
      (∀ s : LoadStatistic, s.WF →
        LoadStatistic.default.merge_with s = s ∧
          s.merge_with LoadStatistic.default = s) ∧
      (∀ a b c : CompactStatistic,
        (a.merge_with b).merge_with c = a.merge_with (b.merge_with c)) ∧
      (∀ a b : CompactStatistic, a.merge_with b = b.merge_with a) ∧
      (∀ s : CompactStatistic, s.WF →
        CompactStatistic.default.merge_with s = s ∧
          s.merge_with CompactStatistic.default = s) := by
  refine ⟨?_, ?_, ?_, ?_, ?_, ?_⟩
  · intro a b c
    simp [LoadStatistic.merge_with, u64add_assoc]
  · intro a b
    simp [LoadStatistic.merge_with, u64add_comm]
  · intro s hs
    obtain ⟨h1, h2, h3, h4, h5⟩ := hs
    obtain ⟨f, k, p, lk, lv⟩ := s
    constructor <;>
      simp_all [LoadStatistic.merge_with, LoadStatistic.default,
        u64add_zero_left, u64add_zero_right]
  · intro a b c
    simp [CompactStatistic.merge_with, u64add_assoc, Nat.add_assoc]
  · intro a b
    simp [CompactStatistic.merge_with, u64add_comm, Nat.add_comm]
  · intro s hs
    obtain ⟨h1, h2, h3, h4⟩ := hs
    obtain ⟨k, p, lk, lv, d1, d2, d3, d4⟩ := s
    constructor <;>
      simp_all [CompactStatistic.merge_with, CompactStatistic.default,
        u64add_zero_left, u64add_zero_right]

/-- Witness for `statistics_merge_monoid`: the identity laws applied to
concrete in-range statistics. -/
theorem statistics_merge_monoid_witness :
    LoadStatistic.default.merge_with ⟨1, 2, 3, 4, 5⟩ = ⟨1, 2, 3, 4, 5⟩ ∧
      CompactStatistic.default.merge_with ⟨1, 2, 3, 4, 5, 6, 7, 8⟩
        = ⟨1, 2, 3, 4, 5, 6, 7, 8⟩ :=
  ⟨(statistics_merge_monoid.2.2.1 ⟨1, 2, 3, 4, 5⟩
      (by unfold LoadStatistic.WF; decide)).1,
   (statistics_merge_monoid.2.2.2.2.2 ⟨1, 2, 3, 4, 5, 6, 7, 8⟩
      (by unfold CompactStatistic.WF; decide)).1⟩

/-! ## Key/timestamp bounds of emitted compactions (claim C6) -/

/-- The accumulator `u` for key `k` summarizes a nonempty set of already-seen
input files: its files are their ids, its `min_ts`/`max_ts` are the least and
greatest timestamps, and its `min_key`/`max_key` the byte-lexicographic least
and greatest key bounds. -/
def Accumulates (fs₀ : List LogFile) (k : CompactionCollectKey)
    (u : UnformedCompaction) : Prop :=
  ∃ seg : List LogFile, seg ≠ [] ∧
    (∀ f ∈ seg, f ∈ fs₀ ∧ f.collectKey = k) ∧
    u.files = seg.map LogFile.id ∧
    (u.min_ts ∈ seg.map LogFile.min_ts ∧ ∀ f ∈ seg, u.min_ts ≤ f.min_ts) ∧
    (u.max_ts ∈ seg.map LogFile.max_ts ∧ ∀ f ∈ seg, f.max_ts ≤ u.max_ts) ∧
    (u.min_key ∈ seg.map LogFile.min_key ∧
      ∀ f ∈ seg, bytesCmp u.min_key f.min_key ≠ .gt) ∧
    (u.max_key ∈ seg.map LogFile.max_key ∧
      ∀ f ∈ seg, bytesCmp f.max_key u.max_key ≠ .gt)

/-- A compaction's bounds are the exact min/max over its source files. -/
def CompactionBounds (fs₀ : List LogFile) (c : Compaction) : Prop :=
  ∃ seg : List LogFile, seg ≠ [] ∧
    (∀ f ∈ seg, f ∈ fs₀ ∧ f.cf = c.cf ∧ f.region_id = c.region_id) ∧
    c.source = seg.map LogFile.id ∧
    (c.min_ts ∈ seg.map LogFile.min_ts ∧ ∀ f ∈ seg, c.min_ts ≤ f.min_ts) ∧
    (c.max_ts ∈ seg.map LogFile.max_ts ∧ ∀ f ∈ seg, f.max_ts ≤ c.max_ts) ∧
    (c.min_key ∈ seg.map LogFile.min_key ∧
      ∀ f ∈ seg, bytesCmp c.min_key f.min_key ≠ .gt) ∧
    (c.max_key ∈ seg.map LogFile.max_key ∧
      ∀ f ∈ seg, bytesCmp f.max_key c.max_key ≠ .gt)

theorem seed_accumulates {fs₀ : List LogFile} {f : LogFile} (hf : f ∈ fs₀) :
    Accumulates fs₀ f.collectKey (seedAcc f) := by
  refine ⟨[f], by simp, ?_, by simp [seedAcc], ?_, ?_, ?_, ?_⟩
  · intro g hg
    rw [List.mem_singleton] at hg
    subst hg
    exact ⟨hf, rfl⟩
  · refine ⟨by simp [seedAcc], ?_⟩
    intro g hg
    rw [List.mem_singleton] at hg
    subst hg
    exact le_refl _
  · refine ⟨by simp [seedAcc], ?_⟩
    intro g hg
    rw [List.mem_singleton] at hg
    subst hg
    exact le_refl _
  · refine ⟨by simp [seedAcc], ?_⟩
    intro g hg
    rw [List.mem_singleton] at hg
    subst hg
    simp [seedAcc, bytesCmp_self]
  · refine ⟨by simp [seedAcc], ?_⟩
    intro g hg
    rw [List.mem_singleton] at hg
    subst hg
    simp [seedAcc, bytesCmp_self]

theorem bump_accumulates {fs₀ : List LogFile} {k : CompactionCollectKey}
    {u : UnformedCompaction} {f : LogFile} (hf : f ∈ fs₀) (hk : f.collectKey = k)
    (h : Accumulates fs₀ k u) : Accumulates fs₀ k (bumpAcc u f) := by
  obtain ⟨seg, hne, hmem, hfiles, hmints, hmaxts, hminkey, hmaxkey⟩ := h
  refine ⟨seg ++ [f], by simp, ?_, ?_, ?_, ?_, ?_, ?_⟩
  · intro g hg
    rcases List.mem_append.mp hg with hg | hg
    · exact hmem g hg
    · rw [List.mem_singleton] at hg
      subst hg
      exact ⟨hf, hk⟩
  · simp [bumpAcc, hfiles]
  · constructor
    · simp only [bumpAcc, List.map_append, List.mem_append]
      rcases Nat.le_total u.min_ts f.min_ts with hle | hle
      · left
        rw [min_eq_left hle]
        exact hmints.1
      · right
        rw [min_eq_right hle]
        simp
    · intro g hg
      rcases List.mem_append.mp hg with hg | hg
      · exact le_trans (min_le_left _ _) (hmints.2 g hg)
      · rw [List.mem_singleton] at hg
        subst hg
        exact min_le_right _ _
  · constructor
    · simp only [bumpAcc, List.map_append, List.mem_append]
      rcases Nat.le_total u.max_ts f.max_ts with hle | hle
      · right
        rw [max_eq_right hle]
        simp
      · left
        rw [max_eq_left hle]
        exact hmaxts.1
    · intro g hg
      rcases List.mem_append.mp hg with hg | hg
      · exact le_trans (hmaxts.2 g hg) (le_max_left _ _)
      · rw [List.mem_singleton] at hg
        subst hg
        exact le_max_right _ _
  · by_cases hgt : bytesCmp u.min_key f.min_key = .gt
    · have hflt : bytesLe f.min_key u.min_key := by
        unfold bytesLe
        rw [bytesCmp_gt_iff.mp hgt]
        simp
      constructor
      · simp [bumpAcc, hgt]
      · intro g hg
        simp only [bumpAcc, if_pos hgt]
        rcases List.mem_append.mp hg with hg | hg
        · exact bytesLe_trans hflt (hminkey.2 g hg)
        · rw [List.mem_singleton] at hg
          subst hg
          simp [bytesCmp_self]
    · constructor
      · simp only [bumpAcc, if_neg hgt, List.map_append, List.mem_append]
        exact Or.inl hminkey.1
      · intro g hg
        simp only [bumpAcc, if_neg hgt]
        rcases List.mem_append.mp hg with hg | hg
        · exact hminkey.2 g hg
        · rw [List.mem_singleton] at hg
          subst hg
          exact hgt
  · by_cases hlt : bytesCmp u.max_key f.max_key = .lt
    · have hule : bytesLe u.max_key f.max_key := by
        unfold bytesLe
        rw [hlt]
        simp
      constructor
      · simp [bumpAcc, hlt]
      · intro g hg
        simp only [bumpAcc, if_pos hlt]
        rcases List.mem_append.mp hg with hg | hg
        · exact bytesLe_trans (hmaxkey.2 g hg) hule
        · rw [List.mem_singleton] at hg
          subst hg
          simp [bytesCmp_self]
    · constructor
      · simp only [bumpAcc, if_neg hlt, List.map_append, List.mem_append]
        exact Or.inl hmaxkey.1
      · intro g hg
        simp only [bumpAcc, if_neg hlt]
        rcases List.mem_append.mp hg with hg | hg
        · exact hmaxkey.2 g hg
        · rw [List.mem_singleton] at hg
          subst hg
          intro hcon
          exact hlt (bytesCmp_gt_iff.mp hcon)

theorem accumulates_formComp {fs₀ : List LogFile} {k : CompactionCollectKey}
    {u : UnformedCompaction} (h : Accumulates fs₀ k u) :
    CompactionBounds fs₀ (formComp k u) := by
  obtain ⟨seg, hne, hmem, hfiles, hmints, hmaxts, hminkey, hmaxkey⟩ := h
  refine ⟨seg, hne, ?_, hfiles, hmints, hmaxts, hminkey, hmaxkey⟩
  intro f hf
  obtain ⟨hin, hk⟩ := hmem f hf
  refine ⟨hin, ?_, ?_⟩
  · exact congrArg CompactionCollectKey.cf hk
  · exact congrArg CompactionCollectKey.region_id hk

theorem findEntry_of_mem {l : ItemMap} (hnd : NodupKeys l)
    {e : CompactionCollectKey × UnformedCompaction} (he : e ∈ l) :
    findEntry e.1 l = some e.2 := by
  induction l with
  | nil => simp at he
  | cons x t ih =>
    rcases List.mem_cons.mp he with rfl | he
    · simp [findEntry]
    · have hx : x.1 ≠ e.1 := by
        intro hcon
        have : x.1 ∈ t.map Prod.fst := hcon ▸ List.mem_map_of_mem Prod.fst he
        exact (List.nodup_cons.mp hnd).1 this
      simp only [findEntry, if_neg hx]
      exact ih (List.nodup_cons.mp hnd).2 he

theorem add_new_file_bounds (fs₀ : List LogFile) (s : CompactionCollector)
    (f : LogFile) (hf : f ∈ fs₀) (hnd : NodupKeys s.items)
    (hinv : ∀ k u, findEntry k s.items = some u → Accumulates fs₀ k u) :
    (∀ c, (add_new_file s f).1 = some c → CompactionBounds fs₀ c) ∧
      (∀ k u, findEntry k (add_new_file s f).2.items = some u →
        Accumulates fs₀ k u) := by
  cases hfind : findEntry f.collectKey s.items with
  | none =>
    rw [add_new_file_vacant hfind]
    constructor
    · intro c hc
      exact Option.noConfusion hc
    · intro k u hu
      replace hu : findEntry k (s.items ++ [(f.collectKey, seedAcc f)]) = some u := hu
      cases hfq : findEntry k s.items with
      | some w =>
        rw [findEntry_append_some hfq] at hu
        injection hu with hu
        subst hu
        exact hinv k _ hfq
      | none =>
        rw [findEntry_append_none hfq] at hu
        by_cases hk : f.collectKey = k
        · rw [findEntry, if_pos hk] at hu
          cases hu
          exact hk ▸ seed_accumulates hf
        · rw [findEntry, if_neg hk] at hu
          exact Option.noConfusion hu
  | some w =>
    have hacc' := bump_accumulates hf rfl (hinv f.collectKey w hfind)
    obtain ⟨l1, l2, hdec, hn1⟩ := findEntry_decomp hfind
    have hn2 : findEntry f.collectKey l2 = none := nodupKeys_middle_right (hdec ▸ hnd)
    by_cases ht : (bumpAcc w f).size > s.compaction_size_threshold
    · rw [add_new_file_emit hfind ht]
      constructor
      · intro c hc
        replace hc : some (formComp f.collectKey (bumpAcc w f)) = some c := hc
        cases hc
        exact accumulates_formComp hacc'
      · intro k u hu
        replace hu : findEntry k (eraseEntry f.collectKey s.items) = some u := hu
        rw [hdec, eraseEntry_decomp hn1] at hu
        by_cases hk : f.collectKey = k
        · subst hk
          rw [findEntry_append_none hn1, hn2] at hu
          exact Option.noConfusion hu
        · apply hinv k u
          rw [hdec, findEntry_middle_ne hk]
          exact hu
    · rw [add_new_file_keep hfind ht]
      constructor
      · intro c hc
        exact Option.noConfusion hc
      · intro k u hu
        replace hu : findEntry k (replaceEntry f.collectKey (bumpAcc w f) s.items)
            = some u := hu
        rw [hdec, replaceEntry_decomp hn1] at hu
        by_cases hk : f.collectKey = k
        · subst hk
          rw [findEntry_append_none hn1, findEntry, if_pos rfl] at hu
          cases hu
          exact hacc'
        · rw [findEntry_middle_ne hk] at hu
          apply hinv k u
          rw [hdec, findEntry_middle_ne hk]
          exact hu

theorem collectFiles_bounds (fs₀ : List LogFile) :
    ∀ (fs : List LogFile) (s : CompactionCollector),
      (∀ f ∈ fs, f ∈ fs₀) → NodupKeys s.items →
      (∀ k u, findEntry k s.items = some u → Accumulates fs₀ k u) →
      (∀ c ∈ (collectFiles s fs).1, CompactionBounds fs₀ c) ∧
        (∀ k u, findEntry k (collectFiles s fs).2.items = some u →
          Accumulates fs₀ k u) := by
  intro fs
  induction fs with
  | nil =>
    intro s _ _ hinv
    exact ⟨by simp [collectFiles], hinv⟩
  | cons f fs ih =>
    intro s hmem hnd hinv
    have hstep := add_new_file_bounds fs₀ s f (hmem f (List.mem_cons_self _ _)) hnd hinv
    have hnd' := add_new_file_nodup s f hnd
    have hrest := ih (add_new_file s f).2
      (fun g hg => hmem g (List.mem_cons_of_mem _ hg)) hnd' hstep.2
    constructor
    · intro c hc
      replace hc : c ∈ (add_new_file s f).1.toList
          ++ (collectFiles (add_new_file s f).2 fs).1 := hc
      rcases List.mem_append.mp hc with hc | hc
      · cases hopt : (add_new_file s f).1 with
        | none =>
          rw [hopt] at hc
          simp at hc
        | some c0 =>
          rw [hopt] at hc
          simp only [Option.toList, List.mem_singleton] at hc
          subst hc
          exact hstep.1 _ hopt
      · exact hrest.1 c hc
    · exact hrest.2

theorem take_pending_bounds (fs₀ : List LogFile) (s : CompactionCollector)
    (hnd : NodupKeys s.items)
    (hinv : ∀ k u, findEntry k s.items = some u → Accumulates fs₀ k u) :
    ∀ c ∈ (take_pending_compactions s).1, CompactionBounds fs₀ c := by
  intro c hc
  replace hc : c ∈ s.items.map (fun e => formComp e.1 e.2) := hc
  obtain ⟨e, he, rfl⟩ := List.mem_map.mp hc
  exact accumulates_formComp (hinv e.1 e.2 (findEntry_of_mem hnd he))

/-- Claim C6: every `Compaction` the collector produces — emitted on a
threshold crossing or flushed at end-of-stream — draws its sources from a
nonempty set of input files of its own (cf, region) key, and its `min_key`
is the byte-lexicographic minimum of those files' `min_key`s, its `max_key`
their byte-lexicographic maximum `max_key`, its `min_ts`/`max_ts` the
minimum/maximum of their timestamps. -/
theorem compaction_bounds (fs : List LogFile) (c : Compaction)
    (hc : c ∈ runCollector fs) : CompactionBounds fs c := by
  have hnd : NodupKeys initCollector.items := List.nodup_nil
  have hinv0 : ∀ k u, findEntry k initCollector.items = some u →
      Accumulates fs k u := by
    intro k u hu
    exact Option.noConfusion hu
  have hrun := collectFiles_bounds fs fs initCollector (fun f hf => hf) hnd hinv0
  replace hc : c ∈ (collectFiles initCollector fs).1
      ++ (take_pending_compactions (collectFiles initCollector fs).2).1 := hc
  rcases List.mem_append.mp hc with hc | hc
  · exact hrun.1 c hc
  · exact take_pending_bounds fs _ (collectFiles_nodup fs initCollector hnd)
      hrun.2 c hc

/-- The compaction emitted for `[wfileA, wfileB]`. -/
def cW : Compaction :=
  { source := [wfileA.id, wfileB.id]
    size := 157286400
    region_id := 1
    cf := "default"
    max_ts := 10
    min_ts := 2
    min_key := [1, 0]
    max_key := [1, 9] }

/-- Witness for `compaction_bounds` on the concrete two-file run. -/
theorem compaction_bounds_witness : CompactionBounds [wfileA, wfileB] cW :=
  compaction_bounds [wfileA, wfileB] cW (by decide)

/-! ## Key reconstruction in write_sst (claim C7) -/

/-- The loop of `CompactWorker::write_sst`, returning the sequence of
`put(key, value)` calls issued to the table writer. `key_buf` is the mutable
key buffer and `lastPfx` the `Arc` pointer stored in `last_prefix`: when the
current record's prefix is the same pointer, the buffer is truncated to the
prefix length and the suffix appended; otherwise the buffer is reset to the
prefix bytes. In either case `last_prefix` then holds the current pointer. -/
def write_sst_loop (key_buf : List Nat) (lastPfx : Option Nat) :
    List Record → List (List Nat × List Nat)
  | [] => []
  | item :: rest =>
      let buf :=
        if lastPfx = some item.pfxId then key_buf.take item.pfx.length
        else item.pfx
      let buf2 := buf ++ item.key
      (buf2, item.value) :: write_sst_loop buf2 (some item.pfxId) rest

/-- The `put` calls of `write_sst`, starting from the empty buffer and no
previous prefix. -/
def write_sst_puts (items : List Record) : List (List Nat × List Nat) :=
  write_sst_loop [] none items

theorem write_sst_loop_correct :
    ∀ (items : List Record) (key_buf : List Nat) (lastPfx : Option Nat),
      (∀ r1 ∈ items, ∀ r2 ∈ items, r1.pfxId = r2.pfxId → r1.pfx = r2.pfx) →
      (∀ r ∈ items, lastPfx = some r.pfxId → key_buf.take r.pfx.length = r.pfx) →
      write_sst_loop key_buf lastPfx items
        = items.map (fun r => (r.pfx ++ r.key, r.value)) := by
  intro items
  induction items with
  | nil => intro _ _ _ _; rfl
  | cons item rest ih =>
    intro key_buf lastPfx hcons hbuf
    have hbufeq : (if lastPfx = some item.pfxId then key_buf.take item.pfx.length
        else item.pfx) = item.pfx := by
      by_cases hl : lastPfx = some item.pfxId
      · rw [if_pos hl]
        exact hbuf item (List.mem_cons_self _ _) hl
      · rw [if_neg hl]
    simp only [write_sst_loop, hbufeq, List.map_cons]
    congr 1
    apply ih
    · intro r1 h1 r2 h2
      exact hcons r1 (List.mem_cons_of_mem _ h1) r2 (List.mem_cons_of_mem _ h2)
    · intro r hr hl
      injection hl with hl
      have hpfx : item.pfx = r.pfx :=
        hcons item (List.mem_cons_self _ _) r (List.mem_cons_of_mem _ hr) hl
      rw [← hpfx, List.take_left]

/-- Claim C7: under the `Arc` invariant (records whose prefix handles are the
same pointer hold the same prefix bytes), `write_sst` issues exactly one
`put` per record, in input order, with full key equal to the record's prefix
bytes concatenated with its key suffix and with the value unchanged — the
identity-based key-buffer reuse never produces a wrong full key. -/
theorem write_sst_puts_correct (items : List Record)
    (hcons : PtrConsistent items) :
    write_sst_puts items = items.map (fun r => (r.pfx ++ r.key, r.value)) := by
  unfold write_sst_puts
  apply write_sst_loop_correct items [] none hcons
  intro r _ hl
  exact Option.noConfusion hl

/-- Key "ab" (prefix "a", suffix "b"), value v1. -/
def rwFirst : Record := { pfxId := 5, pfx := [97], key := [98], value := [1] }

/-- Key "ac" (same shared prefix handle), value v2. -/
def rwSecond : Record := { pfxId := 5, pfx := [97], key := [99], value := [2] }

/-- Witness for `write_sst_puts_correct`: the spec's scenario — suffix keys
"b" and "c" sharing prefix "a" produce entries "ab" → v1 then "ac" → v2. -/
theorem write_sst_puts_witness :
    write_sst_puts [rwFirst, rwSecond]
      = [([97, 98], [1]), ([97, 99], [2])] := by
  have h := write_sst_puts_correct [rwFirst, rwSecond]
    (by unfold PtrConsistent; decide)
  rw [h]
  rfl

/-! ## Source::load and the files_in counter (claim C8)

The storage read + Zstd copy, the flush, and the event-stream decoding are
external collaborators; their outcomes are parameters: `copyRes` is the
result of `futures::io::copy` (bytes copied), `flushRes` of the decompressor
flush, `kvs` the events the iterator yields before `decodeErr` (a decode
failure at the following `next()`, or `none` for a clean end of stream). -/

/-- An error value carrying a count of attached diagnostic frames
(`attach_current_frame` adds one). -/
structure TraceErr where
  code : Nat
  frames : Nat
deriving DecidableEq, Repr

/-- `err.attach_current_frame()`: wrap the error with one more frame. -/
def attach_current_frame (e : TraceErr) : TraceErr :=
  { e with frames := e.frames + 1 }

/-- The per-event statistics bump of `Source::load`'s iteration loop. -/
def bumpKvStat (st : Option LoadStatistic) (kv : List Nat × List Nat) :
    Option LoadStatistic :=
  st.map fun s =>
    { s with
      keys_in := u64add s.keys_in 1
      logical_key_bytes_in := u64add s.logical_key_bytes_in kv.1.length
      logical_value_bytes_in := u64add s.logical_value_bytes_in kv.2.length }

/-- `Source::load`: threads the optional statistics sink through the copy,
flush, and iteration stages; every `?` early-returns with the statistics
mutated so far; `files_in` is bumped only after complete, error-free
iteration, immediately before `Ok`. -/
def source_load (copyRes : Except TraceErr Nat) (flushRes : Except TraceErr Unit)
    (kvs : List (List Nat × List Nat)) (decodeErr : Option TraceErr)
    (stat : Option LoadStatistic) :
    Except TraceErr Unit × Option LoadStatistic :=
  match copyRes with
  | .error e => (.error e, stat)
  | .ok n =>
    let stat1 := stat.map fun s =>
      { s with physical_bytes_in := u64add s.physical_bytes_in n }
    match flushRes with
    | .error e => (.error e, stat1)
    | .ok _ =>
      let stat2 := kvs.foldl bumpKvStat stat1
      match decodeErr with
      | some e => (.error e, stat2)
      | none =>
        (.ok (), stat2.map fun s => { s with files_in := u64add s.files_in 1 })

theorem foldl_bumpKvStat_files_in (kvs : List (List Nat × List Nat))
    (s : LoadStatistic) :
    ∃ s' : LoadStatistic, kvs.foldl bumpKvStat (some s) = some s' ∧
      s'.files_in = s.files_in := by
  induction kvs generalizing s with
  | nil => exact ⟨s, rfl, rfl⟩
  | cons kv rest ih =>
    obtain ⟨s', h1, h2⟩ := ih
      { s with
        keys_in := u64add s.keys_in 1
        logical_key_bytes_in := u64add s.logical_key_bytes_in kv.1.length
        logical_value_bytes_in := u64add s.logical_value_bytes_in kv.2.length }
    exact ⟨s', h1, h2⟩

/-- Claim C8: with a provided statistics sink, `Source::load` returns `Ok`
exactly when the copy, the flush and the whole iteration succeed, and then
`files_in` is incremented by exactly one; on every error return, `files_in`
is unchanged from its value at entry (other counters bumped before the
failure do persist through the `&mut` sink, but not the file count). -/
theorem source_load_files_in (copyRes : Except TraceErr Nat)
    (flushRes : Except TraceErr Unit) (kvs : List (List Nat × List Nat))
    (decodeErr : Option TraceErr) (s0 : LoadStatistic) :
    ∃ s1 : LoadStatistic,
      (source_load copyRes flushRes kvs decodeErr (some s0)).2 = some s1 ∧
        ((source_load copyRes flushRes kvs decodeErr (some s0)).1 = .ok () ↔
          ((∃ n, copyRes = .ok n) ∧ flushRes = .ok () ∧ decodeErr = none)) ∧
        ((source_load copyRes flushRes kvs decodeErr (some s0)).1 = .ok () →
          s1.files_in = u64add s0.files_in 1) ∧
        ((∃ e, (source_load copyRes flushRes kvs decodeErr (some s0)).1
            = .error e) → s1.files_in = s0.files_in) := by
  cases copyRes with
  | error e =>
    refine ⟨s0, rfl, ?_, ?_, ?_⟩
    · simp [source_load]
    · intro h
      simp [source_load] at h
    · intro _
      rfl
  | ok n =>
    cases flushRes with
    | error e =>
      refine ⟨{ s0 with physical_bytes_in := u64add s0.physical_bytes_in n },
        ?_, ?_, ?_, ?_⟩
      · simp [source_load, Option.map_some']
      · simp [source_load]
      · intro h
        simp [source_load] at h
      · intro _
        rfl
    | ok _ =>
      obtain ⟨s', hfold, hfiles⟩ := foldl_bumpKvStat_files_in kvs
        { s0 with physical_bytes_in := u64add s0.physical_bytes_in n }
      cases decodeErr with
      | some e =>
        refine ⟨s', ?_, ?_, ?_, ?_⟩
        · simpa [source_load, Option.map_some'] using hfold
        · simp [source_load]
        · intro h
          simp [source_load] at h
        · intro _
          exact hfiles
      | none =>
        refine ⟨{ s' with files_in := u64add s'.files_in 1 }, ?_, ?_, ?_, ?_⟩
        · simp only [source_load, Option.map_some']
          rw [hfold]
          rfl
        · simp [source_load]
        · intro _
          simp [hfiles]
        · intro h
          obtain ⟨e, he⟩ := h
          simp [source_load] at he

/-- Witness for `source_load_files_in` at concrete inputs. -/
theorem source_load_files_in_witness :
    ∃ s1 : LoadStatistic,
      (source_load (.ok 10) (.ok ()) [([1], [2, 3])] none
          (some LoadStatistic.default)).2 = some s1 ∧
        ((source_load (.ok 10) (.ok ()) [([1], [2, 3])] none
            (some LoadStatistic.default)).1 = .ok () ↔
          ((∃ n, (.ok 10 : Except TraceErr Nat) = .ok n) ∧
            (.ok () : Except TraceErr Unit) = .ok () ∧
              (none : Option TraceErr) = none)) ∧
        ((source_load (.ok 10) (.ok ()) [([1], [2, 3])] none
            (some LoadStatistic.default)).1 = .ok () →
          s1.files_in = u64add LoadStatistic.default.files_in 1) ∧
        ((∃ e, (source_load (.ok 10) (.ok ()) [([1], [2, 3])] none
            (some LoadStatistic.default)).1 = .error e) →
          s1.files_in = LoadStatistic.default.files_in) :=
  source_load_files_in (.ok 10) (.ok ()) [([1], [2, 3])] none
    LoadStatistic.default

/-! ## The CollectCompaction stream operator and upstream errors (claim C9)

`poll_next` is modelled over a finite inner-stream history: each inner item
is either `Ok(LogFile)` or `Err`; after the inner stream ends the pending
accumulators are snapshotted once and popped from the BACK of the vector
(`Vec::pop`), hence the reversal in `collectRun`. An upstream error is
returned wrapped via `attach_current_frame`; the operator stores no
terminal state for it, so later polls keep draining the inner stream. -/

/-- Outputs of repeated `poll_next` calls while the inner stream still
yields items, threading the collector state. -/
def collectItems (s : CompactionCollector) :
    List (Except TraceErr LogFile) → List (Except TraceErr Compaction) × CompactionCollector
  | [] => ([], s)
  | .error e :: rest =>
      let r := collectItems s rest
      (.error (attach_current_frame e) :: r.1, r.2)
  | .ok f :: rest =>
      let a := add_new_file s f
      let r := collectItems a.2 rest
      ((a.1.toList.map Except.ok) ++ r.1, r.2)

/-- A full run of the `CollectCompaction` stream: the items produced while
the inner stream was live, then the end-of-stream flush, popped from the
back of the pending vector. -/
def collectRun (items : List (Except TraceErr LogFile)) :
    List (Except TraceErr Compaction) :=
  (collectItems initCollector items).1
    ++ ((take_pending_compactions (collectItems initCollector items).2).1.reverse.map
        Except.ok)

/-- An upstream error with no frames attached yet. -/
def eUp : TraceErr := { code := 7, frames := 0 }

/-- The compaction flushed for `wfileA` alone (below the threshold, so it is
only emitted by the end-of-stream flush). -/
def cFlushA : Compaction :=
  { source := [wfileA.id]
    size := 104857600
    region_id := 1
    cf := "default"
    max_ts := 10
    min_ts := 5
    min_key := [1, 2]
    max_key := [1, 9] }

/-- Claim C9 as stated is false: after the inner stream yields an error, the
operator does NOT terminate — it returns the wrapped error and then keeps
consuming the inner stream, here emitting a further `Ok(Compaction)` for a
file that arrived after the error. -/
theorem collect_error_termination_counterexample :
    collectRun [.error eUp, .ok wfileA]
      = [.error (attach_current_frame eUp), .ok cFlushA]
      ∧ attach_current_frame eUp = { code := 7, frames := 1 } := by
  constructor
  · rfl
  · rfl

theorem collectItems_append (s : CompactionCollector)
    (xs ys : List (Except TraceErr LogFile)) :
    collectItems s (xs ++ ys)
      = ((collectItems s xs).1 ++ (collectItems (collectItems s xs).2 ys).1,
         (collectItems (collectItems s xs).2 ys).2) := by
  induction xs generalizing s with
  | nil => rfl
  | cons x rest ih =>
    cases x with
    | error e =>
      simp only [List.cons_append, collectItems, List.append_eq, ih,
        List.append_assoc]
    | ok f =>
      simp only [List.cons_append, collectItems, List.append_eq, ih,
        List.append_assoc]

theorem collectItems_error_cons (s : CompactionCollector) (e : TraceErr)
    (rest : List (Except TraceErr LogFile)) :
    collectItems s (.error e :: rest)
      = (.error (attach_current_frame e) :: (collectItems s rest).1,
         (collectItems s rest).2) := rfl

/-- Claim C9, amended to match the code: when the inner stream yields an
error, the very next poll returns that error wrapped with an attached
context frame, the collector state is unchanged by the error, and the
operator does not terminate — subsequent polls keep consuming the inner
stream exactly as they would have without the error, and may yield further
compactions or errors. -/
theorem collect_error_transparent (pre post : List (Except TraceErr LogFile))
    (e : TraceErr) :
    collectRun (pre ++ .error e :: post)
      = (collectItems initCollector pre).1
          ++ .error (attach_current_frame e)
            :: ((collectItems (collectItems initCollector pre).2 post).1
                ++ ((take_pending_compactions
                      (collectItems (collectItems initCollector pre).2 post).2).1.reverse.map
                    Except.ok)) := by
  unfold collectRun
  simp only [collectItems_append, collectItems_error_cons, List.append_assoc,
    List.cons_append]

/-! ## Prefix stripping in CompactWorker::load (claim C10) -/

/-- `common_prefix_len(k1, k2)`: length of the longest common byte prefix. -/
def common_prefix_len : List Nat → List Nat → Nat
  | a :: as, b :: bs => if a = b then common_prefix_len as bs + 1 else 0
  | _, _ => 0

/-- `<[u8]>::strip_prefix`: `some suffix` when the key starts with the
prefix, `none` otherwise (where the code calls `.unwrap()` and panics). -/
def stripPfx : List Nat → List Nat → Option (List Nat)
  | [], k => some k
  | _ :: _, [] => none
  | p :: ps, q :: qs => if p = q then stripPfx ps qs else none

/-- The record construction of `CompactWorker::load`: the common prefix of
the compaction's `min_key`/`max_key` is computed once and shared (`pid` is
its `Arc` pointer token); each decoded key is stripped of it with an
unchecked unwrap — `none` models the panic on the first key that does not
start with the prefix. -/
def load_records (minKey maxKey : List Nat) (pid : Nat) :
    List (List Nat × List Nat) → Option (List Record)
  | [] => some []
  | kv :: rest =>
      match stripPfx (minKey.take (common_prefix_len minKey maxKey)) kv.1 with
      | none => none
      | some suffix =>
          match load_records minKey maxKey pid rest with
          | none => none
          | some rs =>
              some ({ pfxId := pid
                      pfx := minKey.take (common_prefix_len minKey maxKey)
                      key := suffix
                      value := kv.2 } :: rs)

theorem stripPfx_drop : ∀ {p k s : List Nat}, stripPfx p k = some s →
    s = k.drop p.length := by
  intro p
  induction p with
  | nil =>
    intro k s h
    injection h with h
    subst h
    simp
  | cons q ps ih =>
    intro k s h
    cases k with
    | nil => exact Option.noConfusion h
    | cons c cs =>
      by_cases hqc : q = c
      · simp only [stripPfx, if_pos hqc] at h
        simpa using ih h
      · simp only [stripPfx, if_neg hqc] at h
        exact Option.noConfusion h

theorem range_has_common_pfx :
    ∀ (minKey maxKey k : List Nat),
      bytesCmp minKey k ≠ .gt → bytesCmp k maxKey ≠ .gt →
      ∃ suffix, stripPfx (minKey.take (common_prefix_len minKey maxKey)) k
        = some suffix := by
  intro minKey
  induction minKey with
  | nil =>
    intro maxKey k _ _
    exact ⟨k, rfl⟩
  | cons m ms ih =>
    intro maxKey k hmin hmax
    cases maxKey with
    | nil => exact ⟨k, rfl⟩
    | cons x xs =>
      cases k with
      | nil => exact absurd rfl hmin
      | cons c cs =>
        by_cases hmx : m = x
        · subst hmx
          have h1 : compare m c ≠ Ordering.gt ∧
              (compare m c = Ordering.eq → bytesCmp ms cs ≠ Ordering.gt) := by
            constructor
            · intro hc
              exact hmin (then_eq_gt.mpr (Or.inl hc))
            · intro he hc
              exact hmin (then_eq_gt.mpr (Or.inr ⟨he, hc⟩))
          have h2 : compare c m ≠ Ordering.gt ∧
              (compare c m = Ordering.eq → bytesCmp cs xs ≠ Ordering.gt) := by
            constructor
            · intro hc
              exact hmax (then_eq_gt.mpr (Or.inl hc))
            · intro he hc
              exact hmax (then_eq_gt.mpr (Or.inr ⟨he, hc⟩))
          have hcm : ¬ c < m := fun hlt => h1.1 (Nat.compare_eq_gt.mpr hlt)
          have hmc : ¬ m < c := fun hlt => h2.1 (Nat.compare_eq_gt.mpr hlt)
          have hceq : c = m := by omega
          subst hceq
          obtain ⟨suf, hsuf⟩ := ih xs cs
            (h1.2 (Nat.compare_eq_eq.mpr rfl))
            (h2.2 (Nat.compare_eq_eq.mpr rfl))
          refine ⟨suf, ?_⟩
          simp only [common_prefix_len, if_pos rfl, List.take_succ_cons,
            stripPfx, if_pos rfl]
          exact hsuf
        · refine ⟨c :: cs, ?_⟩
          simp [common_prefix_len, hmx, stripPfx]

theorem load_records_total (minKey maxKey : List Nat) (pid : Nat) :
    ∀ kvs : List (List Nat × List Nat),
      (∀ kv ∈ kvs, ∃ suffix,
        stripPfx (minKey.take (common_prefix_len minKey maxKey)) kv.1
          = some suffix) →
      load_records minKey maxKey pid kvs
        = some (kvs.map fun kv =>
            { pfxId := pid
              pfx := minKey.take (common_prefix_len minKey maxKey)
              key := kv.1.drop (minKey.take (common_prefix_len minKey maxKey)).length
              value := kv.2 }) := by
  intro kvs
  induction kvs with
  | nil => intro _; rfl
  | cons kv rest ih =>
    intro hin
    obtain ⟨suf, hsuf⟩ := hin kv (List.mem_cons_self _ _)
    have hrest := ih (fun x hx => hin x (List.mem_cons_of_mem _ hx))
    simp only [load_records, hsuf, hrest, List.map_cons]
    rw [stripPfx_drop hsuf]

/-- Claim C10: `CompactWorker::load` strips the common prefix of the batch's
`min_key`/`max_key` from every decoded key with an unchecked unwrap. When
every key starts with that prefix the unwrap never fails — and that
precondition holds whenever all keys lie within `[min_key, max_key]` — but
an input with a key outside the prefix makes `load` panic (modelled `none`)
instead of returning a typed error. -/
theorem load_strip_common_prefix :
    (∀ minKey maxKey k : List Nat,
        bytesCmp minKey k ≠ .gt → bytesCmp k maxKey ≠ .gt →
        ∃ suffix, stripPfx (minKey.take (common_prefix_len minKey maxKey)) k
          = some suffix) ∧
      (∀ (minKey maxKey : List Nat) (pid : Nat)
          (kvs : List (List Nat × List Nat)),
        (∀ kv ∈ kvs, ∃ suffix,
          stripPfx (minKey.take (common_prefix_len minKey maxKey)) kv.1
            = some suffix) →
        load_records minKey maxKey pid kvs
          = some (kvs.map fun kv =>
              { pfxId := pid
                pfx := minKey.take (common_prefix_len minKey maxKey)
                key := kv.1.drop
                  (minKey.take (common_prefix_len minKey maxKey)).length
                value := kv.2 })) ∧
      load_records [1, 1] [1, 3] 0 [([2, 5], [9])] = none :=
  ⟨range_has_common_pfx,
   fun minKey maxKey pid kvs hin => load_records_total minKey maxKey pid kvs hin,
   rfl⟩

/-- Witness for `load_strip_common_prefix`: a key within the bounds is
stripped without a panic. -/
theorem load_strip_common_prefix_witness :
    (∃ suffix, stripPfx ([1, 1].take (common_prefix_len [1, 1] [1, 3])) [1, 2]
      = some suffix) ∧
      load_records [1, 1] [1, 3] 0 [([1, 2], [9])]
        = some [{ pfxId := 0, pfx := [1], key := [2], value := [9] }] := by
  constructor
  · exact load_strip_common_prefix.1 [1, 1] [1, 3] [1, 2] (by decide) (by decide)
  · have h := load_strip_common_prefix.2.1 [1, 1] [1, 3] 0 [([1, 2], [9])]
      (by
        intro kv hkv
        rw [List.mem_singleton] at hkv
        subst hkv
        exact ⟨[2], rfl⟩)
    rw [h]
    rfl

end Compact
